import Mathlib

/-!
Shallow embedding of the search subsystem of `super-bookmarks`
(`src/lib/embeddings/embedding-client.js`, class `VectorSearch`, and the
query dispatch of `SearchView.handleSearch`), together with theorems
checking the natural-language specification against it.

Modelling conventions:
* JavaScript numbers are modelled as real numbers (`ℝ`) on the semantic
  search side (vectors, cosine scores) and as rationals (`ℚ`) on the
  keyword/tag side, whose scores are exact rationals.
* Strings scanned character-by-character (titles, contents, tags, query
  terms) are modelled as `List Char`; opaque identifiers as `String`.
* A thrown JavaScript exception is an `Except.error`; `async` state
  (the embedding cache) is passed explicitly.
* The occurrence count of `keywordSearch` comes from the source's
  unescaped `new RegExp(keyword, 'gi')`. It is modelled twice:
  `keywordSearch` is an idealized total version whose count is the
  literal substring count — exactly what the regex computes for terms
  free of metacharacters — and `keywordSearchJS` is the faithful
  fallible version, which parses each term as a pattern over the
  regular-expression fragment of literals, the `.` wildcard and the
  postfix quantifiers `+ * ?`, and rejects invalid patterns the way
  `new RegExp` throws a `SyntaxError` (for example on `c++`).
-/

/-- Lower-level string type used for text that the search code scans
character by character. -/
abbrev Str := List Char

/-- Model of JavaScript `String.prototype.toLowerCase`. -/
def lowerStr (s : Str) : Str := s.map Char.toLower

/-- Model of JavaScript `haystack.includes(needle)` (substring test). -/
def containsSub (needle : Str) : Str → Bool
  | [] => needle.isEmpty
  | c :: t => needle.isPrefixOf (c :: t) || containsSub needle t

/-- Auxiliary scan for `countOcc`: counts matches of `n` in the scanned
string, not looking for a new match start inside the first `skip`
characters (the tail of a match already counted). -/
def countOccAux (n : Str) : Str → Nat → Nat
  | [], _ => 0
  | _ :: t, skip + 1 => countOccAux n t skip
  | c :: t, 0 =>
    if n.isPrefixOf (c :: t) then 1 + countOccAux n t (n.length - 1)
    else countOccAux n t 0

/-- Count of non-overlapping occurrences of `needle` in `haystack`,
scanning left to right; for the empty needle this is `length + 1`,
matching what a `g`-flagged empty regex yields in JavaScript. This is
the count the source's `new RegExp(needle, 'gi')` match produces when
`needle` has no regex metacharacters; `regexCount` below models the
unescaped pattern in general. -/
def countOcc (needle haystack : Str) : Nat :=
  if needle.isEmpty then haystack.length + 1 else countOccAux needle haystack 0

/-- Note record as read by the search core (identifier, title, content,
tags; timestamps and derived metadata are never consulted by the search
code and are omitted). -/
structure Note where
  id : String
  title : Str
  content : Str
  tags : List Str
  deriving Repr, DecidableEq

/-- Embedding record: the stored vector (the model-version string and
computed-at timestamp are never consulted by the search code). -/
structure EmbRec where
  vector : List ℝ

/-- Record Store model: the `notes` object store and the `embeddings`
object store, each an association of keys to records in iteration
order. -/
structure DB where
  notes : List Note
  embeddings : List (String × EmbRec)

/-- Model of `db.getNote(id)`. -/
def getNote (db : DB) (id : String) : Option Note :=
  db.notes.find? (fun n => n.id == id)

/-- Model of `db.getAllNotes({limit})`. -/
def getAllNotes (db : DB) (limit : Nat) : List Note :=
  db.notes.take limit

/-- Model of `db.getEmbedding(noteId)`. -/
def getEmbedding (db : DB) (noteId : String) : Option EmbRec :=
  (db.embeddings.find? (fun p => p.1 == noteId)).map (·.2)

/-- Model of `db.getAllEmbeddings()` (a `Map` in iteration order). -/
def getAllEmbeddings (db : DB) : List (String × EmbRec) :=
  db.embeddings

/-- Dot product accumulated by the `cosineSimilarity` loop. -/
def dotL (a b : List ℝ) : ℝ := (List.zipWith (· * ·) a b).sum

/-- Sum of squares accumulated by the `cosineSimilarity` loop. -/
def normSqL (a : List ℝ) : ℝ := (a.map (fun x => x * x)).sum

/-- Model of `VectorSearch.cosineSimilarity`: throws when the lengths
differ, otherwise divides the dot product by the product of the norms,
returning `0` outright when that denominator is `0`. -/
noncomputable def cosineSimilarity (a b : List ℝ) : Except String ℝ :=
  if a.length ≠ b.length then .error "Vectors must have the same length"
  else
    let denominator := Real.sqrt (normSqL a) * Real.sqrt (normSqL b)
    if denominator = 0 then .ok 0
    else .ok (dotL a b / denominator)

lemma normSqL_nonneg (a : List ℝ) : 0 ≤ normSqL a := by
  apply List.sum_nonneg
  intro x hx
  obtain ⟨y, _, rfl⟩ := List.mem_map.mp hx
  exact mul_self_nonneg y

/-- Claim C2: `cosineSimilarity` fails exactly on a length mismatch; on
equal lengths it computes `dot / (‖a‖ * ‖b‖)` and returns exactly `0`
whenever either norm is `0`. -/
theorem cosineSimilarity_spec (a b : List ℝ) :
    ((∃ e, cosineSimilarity a b = .error e) ↔ a.length ≠ b.length) ∧
    (a.length = b.length →
      cosineSimilarity a b =
        .ok (dotL a b / (Real.sqrt (normSqL a) * Real.sqrt (normSqL b)))) ∧
    (a.length = b.length →
      Real.sqrt (normSqL a) = 0 ∨ Real.sqrt (normSqL b) = 0 →
      cosineSimilarity a b = .ok 0) := by
  refine ⟨⟨?_, ?_⟩, ?_, ?_⟩
  · rintro ⟨e, he⟩
    by_contra hne
    have hlen : a.length = b.length := by simpa using hne
    by_cases hd : Real.sqrt (normSqL a) * Real.sqrt (normSqL b) = 0 <;>
      simp [cosineSimilarity, hlen, hd] at he
  · intro hlen
    exact ⟨"Vectors must have the same length", by simp [cosineSimilarity, hlen]⟩
  · intro hlen
    by_cases hd : Real.sqrt (normSqL a) * Real.sqrt (normSqL b) = 0
    · simp [cosineSimilarity, hlen, hd]
    · simp [cosineSimilarity, hlen, hd]
  · intro hlen hz
    have hd : Real.sqrt (normSqL a) * Real.sqrt (normSqL b) = 0 := by
      rcases hz with h | h <;> simp [h]
    simp [cosineSimilarity, hlen, hd]

/-- Witness for C2 at concrete vectors: `[0]` against `[5]` (zero norm
gives exactly `0`), and `[1, 2]` against `[3]` (length mismatch
errors). -/
theorem cosineSimilarity_spec_witness :
    cosineSimilarity [0] [5] = .ok 0 ∧
    (∃ e, cosineSimilarity [1, 2] [3] = .error e) := by
  constructor
  · exact (cosineSimilarity_spec [0] [5]).2.2 (by simp)
      (Or.inl (by simp [normSqL]))
  · exact ((cosineSimilarity_spec [1, 2] [3]).1).mpr (by simp)

/-- One insertion step of the stable descending sort modelling
JavaScript `array.sort((a, b) => b.score - a.score)`: the new element
goes after every element already placed whose score is at least its
own. -/
def insertDescBy {α β : Type} [LinearOrder β] (f : α → β) (x : α) : List α → List α
  | [] => [x]
  | y :: t => if f y < f x then x :: y :: t else y :: insertDescBy f x t

/-- Stable descending sort by the projection `f`, processing the input
left to right. -/
def sortDescBy {α β : Type} [LinearOrder β] (f : α → β) (l : List α) : List α :=
  l.foldl (fun acc x => insertDescBy f x acc) []

lemma insertDescBy_perm {α β : Type} [LinearOrder β] (f : α → β) (x : α)
    (l : List α) : (insertDescBy f x l).Perm (x :: l) := by
  induction l with
  | nil => simp [insertDescBy]
  | cons y t ih =>
    by_cases h : f y < f x
    · simp [insertDescBy, h]
    · simp only [insertDescBy, if_neg h]
      exact ((ih.cons y).trans (List.Perm.swap x y t))

lemma insertDescBy_pairwise {α β : Type} [LinearOrder β] (f : α → β) (x : α)
    (l : List α) (hl : l.Pairwise (fun a b => f b ≤ f a)) :
    (insertDescBy f x l).Pairwise (fun a b => f b ≤ f a) := by
  induction l with
  | nil => simp [insertDescBy]
  | cons y t ih =>
    rcases List.pairwise_cons.mp hl with ⟨hy, ht⟩
    by_cases h : f y < f x
    · rw [insertDescBy, if_pos h]
      refine List.pairwise_cons.mpr ⟨?_, hl⟩
      intro z hz
      rcases List.mem_cons.mp hz with rfl | hz
      · exact le_of_lt h
      · exact le_trans (hy z hz) (le_of_lt h)
    · rw [insertDescBy, if_neg h]
      refine List.pairwise_cons.mpr ⟨?_, ih ht⟩
      intro z hz
      rcases List.mem_cons.mp ((insertDescBy_perm f x t).mem_iff.mp hz) with rfl | hz
      · exact le_of_not_lt h
      · exact hy z hz

lemma sortDescBy_aux_perm {α β : Type} [LinearOrder β] (f : α → β)
    (l acc : List α) :
    (l.foldl (fun acc x => insertDescBy f x acc) acc).Perm (acc ++ l) := by
  induction l generalizing acc with
  | nil => simp
  | cons x t ih =>
    refine (ih (insertDescBy f x acc)).trans ?_
    refine (((insertDescBy_perm f x acc).append_right t)).trans ?_
    exact List.perm_middle.symm

lemma sortDescBy_perm {α β : Type} [LinearOrder β] (f : α → β) (l : List α) :
    (sortDescBy f l).Perm l := by
  simpa using sortDescBy_aux_perm f l []

lemma sortDescBy_pairwise {α β : Type} [LinearOrder β] (f : α → β)
    (l : List α) : (sortDescBy f l).Pairwise (fun a b => f b ≤ f a) := by
  suffices h : ∀ acc, acc.Pairwise (fun a b => f b ≤ f a) →
      (l.foldl (fun acc x => insertDescBy f x acc) acc).Pairwise
        (fun a b => f b ≤ f a) by
    exact h [] (by simp)
  induction l with
  | nil => intro acc hacc; simpa using hacc
  | cons x t ih =>
    intro acc hacc
    exact ih (insertDescBy f x acc) (insertDescBy_pairwise f x acc hacc)

lemma mem_sortDescBy {α β : Type} [LinearOrder β] (f : α → β) (l : List α)
    (a : α) : a ∈ sortDescBy f l ↔ a ∈ l :=
  (sortDescBy_perm f l).mem_iff

/-- Scored note as returned by `search` and `hybridSearch`. -/
structure ScoredNote where
  note : Note
  score : ℝ

/-- Options object of `VectorSearch.search`, with its JavaScript default
values. -/
structure SearchOptions where
  limit : Nat := 20
  threshold : ℝ := 3/10
  tagFilter : List Str := []
  excludeIds : List String := []

/-- State of a `VectorSearch` instance: the database handle, the cached
embedding map (`null` until first built), and the validity flag. -/
structure VS where
  db : DB
  embeddingCache : Option (List (String × EmbRec))
  cacheValid : Bool

/-- Model of `VectorSearch.refreshCache`. -/
def refreshCache (vs : VS) : VS :=
  { vs with embeddingCache := some (getAllEmbeddings vs.db), cacheValid := true }

/-- Model of `VectorSearch.invalidateCache`. -/
def invalidateCache (vs : VS) : VS :=
  { vs with cacheValid := false }

/-- Scoring loop of `search`: skip excluded ids, compute the cosine
similarity against the cached vector (the first thrown error rejects the
whole call), and keep entries whose score reaches the threshold. -/
noncomputable def computeScores (q : List ℝ) (excludeIds : List String)
    (threshold : ℝ) : List (String × EmbRec) → Except String (List (String × ℝ))
  | [] => .ok []
  | (noteId, emb) :: rest =>
    if noteId ∈ excludeIds then computeScores q excludeIds threshold rest
    else
      match cosineSimilarity q emb.vector with
      | .error e => .error e
      | .ok score =>
        match computeScores q excludeIds threshold rest with
        | .error e => .error e
        | .ok results =>
          .ok (if threshold ≤ score then (noteId, score) :: results else results)

/-- Tag-filter predicate of `search`: some filter term is, after
lowercasing both sides, an element of the note's tag list (JavaScript
`Array.prototype.includes`, an equality test). -/
def tagFilterPass (tagFilter : List Str) (note : Note) : Bool :=
  tagFilter.any (fun t => (note.tags.map lowerStr).contains (lowerStr t))

/-- Resolution step of `search`: look every surviving id up in the
Record Store, silently dropping ids whose note no longer exists and,
when a non-empty tag filter is given, notes failing it. -/
def resolveNotes (db : DB) (tagFilter : List Str) :
    List (String × ℝ) → List ScoredNote
  | [] => []
  | (noteId, score) :: rest =>
    match getNote db noteId with
    | none => resolveNotes db tagFilter rest
    | some note =>
      if 0 < tagFilter.length && !tagFilterPass tagFilter note then
        resolveNotes db tagFilter rest
      else ⟨note, score⟩ :: resolveNotes db tagFilter rest

/-- Body of `search` once the cache is fresh: score every cached
vector, sort descending, take the top `limit`, and resolve ids back to
note records. -/
noncomputable def searchOnCache (db : DB) (queryEmbedding : List ℝ)
    (opts : SearchOptions) (cache : List (String × EmbRec)) :
    Except String (List ScoredNote) :=
  match computeScores queryEmbedding opts.excludeIds opts.threshold cache with
  | .error e => .error e
  | .ok results =>
    .ok (resolveNotes db opts.tagFilter
      ((sortDescBy (fun p => p.2) results).take opts.limit))

/-- Model of `VectorSearch.search`: refresh the cache if it is invalid
or absent, then run the scoring pipeline on the cached embeddings. -/
noncomputable def search (vs : VS) (queryEmbedding : List ℝ)
    (opts : SearchOptions) : VS × Except String (List ScoredNote) :=
  let vs' := if !vs.cacheValid || vs.embeddingCache.isNone then refreshCache vs else vs
  (vs', searchOnCache vs'.db queryEmbedding opts (vs'.embeddingCache.getD []))

lemma getNote_id {db : DB} {id : String} {n : Note}
    (h : getNote db id = some n) : n.id = id := by
  have := List.find?_some h
  simpa using this

lemma computeScores_ok_mem {q : List ℝ} {ex : List String} {th : ℝ}
    {cache : List (String × EmbRec)} {res : List (String × ℝ)}
    (h : computeScores q ex th cache = .ok res) :
    ∀ p ∈ res, th ≤ p.2 ∧ p.1 ∉ ex := by
  induction cache generalizing res with
  | nil =>
    simp only [computeScores] at h
    cases h
    simp
  | cons entry rest ih =>
    obtain ⟨noteId, emb⟩ := entry
    by_cases hex : noteId ∈ ex
    · simp only [computeScores, if_pos hex] at h
      exact ih h
    · simp only [computeScores, if_neg hex] at h
      cases hcos : cosineSimilarity q emb.vector with
      | error e => simp [hcos] at h
      | ok score =>
        cases hrec : computeScores q ex th rest with
        | error e => simp [hcos, hrec] at h
        | ok results =>
          simp only [hcos, hrec] at h
          by_cases hth : th ≤ score
          · rw [if_pos hth] at h
            cases h
            intro p hp
            rcases List.mem_cons.mp hp with rfl | hp
            · exact ⟨hth, hex⟩
            · exact ih hrec p hp
          · rw [if_neg hth] at h
            cases h
            exact ih hrec

lemma length_resolveNotes (db : DB) (tf : List Str) (l : List (String × ℝ)) :
    (resolveNotes db tf l).length ≤ l.length := by
  induction l with
  | nil => simp [resolveNotes]
  | cons p rest ih =>
    obtain ⟨noteId, score⟩ := p
    cases hg : getNote db noteId with
    | none =>
      simp only [resolveNotes, hg]
      exact le_trans ih (by simp)
    | some note =>
      by_cases hc : (0 < tf.length && !tagFilterPass tf note) = true
      · simp only [resolveNotes, hg, if_pos hc]
        exact le_trans ih (by simp)
      · simp only [resolveNotes, hg, if_neg hc, List.length_cons]
        omega

lemma mem_resolveNotes {db : DB} {tf : List Str} {l : List (String × ℝ)}
    {n : ScoredNote} (h : n ∈ resolveNotes db tf l) :
    ∃ p ∈ l, getNote db p.1 = some n.note ∧ n.score = p.2 := by
  induction l with
  | nil => simp [resolveNotes] at h
  | cons p rest ih =>
    obtain ⟨noteId, score⟩ := p
    cases hg : getNote db noteId with
    | none =>
      simp only [resolveNotes, hg] at h
      obtain ⟨p, hp, hrest⟩ := ih h
      exact ⟨p, List.mem_cons_of_mem _ hp, hrest⟩
    | some note =>
      simp only [resolveNotes, hg] at h
      by_cases hc : (0 < tf.length && !tagFilterPass tf note) = true
      · rw [if_pos hc] at h
        obtain ⟨p, hp, hrest⟩ := ih h
        exact ⟨p, List.mem_cons_of_mem _ hp, hrest⟩
      · rw [if_neg hc] at h
        rcases List.mem_cons.mp h with rfl | h
        · exact ⟨(noteId, score), List.mem_cons_self _ _, hg, rfl⟩
        · obtain ⟨p, hp, hrest⟩ := ih h
          exact ⟨p, List.mem_cons_of_mem _ hp, hrest⟩

lemma search_ok_bounds {vs : VS} {q : List ℝ}
    {opts : SearchOptions} {vs' : VS} {res : List ScoredNote}
    (h : search vs q opts = (vs', .ok res)) :
    res.length ≤ opts.limit ∧
    ∀ n ∈ res, opts.threshold ≤ n.score ∧ n.note.id ∉ opts.excludeIds := by
  have h2 : searchOnCache
      (if !vs.cacheValid || vs.embeddingCache.isNone then refreshCache vs else vs).db
      q opts
      ((if !vs.cacheValid || vs.embeddingCache.isNone then refreshCache vs
        else vs).embeddingCache.getD []) = .ok res := by
    have := congrArg Prod.snd h
    simpa [search] using this
  revert h2
  set db' := (if !vs.cacheValid || vs.embeddingCache.isNone then refreshCache vs
    else vs).db
  set cache := (if !vs.cacheValid || vs.embeddingCache.isNone then refreshCache vs
    else vs).embeddingCache.getD []
  intro h2
  cases hcs : computeScores q opts.excludeIds opts.threshold cache with
  | error e => simp [searchOnCache, hcs] at h2
  | ok results =>
    simp only [searchOnCache, hcs] at h2
    have hres : res = resolveNotes db' opts.tagFilter
        ((sortDescBy (fun p => p.2) results).take opts.limit) := by
      cases h2
      rfl
    constructor
    · calc res.length
          ≤ ((sortDescBy (fun p => p.2) results).take opts.limit).length := by
            rw [hres]; exact length_resolveNotes _ _ _
        _ ≤ opts.limit := by simp
    · intro n hn
      rw [hres] at hn
      obtain ⟨p, hp, hnote, hscore⟩ := mem_resolveNotes hn
      have hp' : p ∈ results :=
        (mem_sortDescBy (fun p => p.2) results p).mp (List.mem_of_mem_take hp)
      obtain ⟨hth, hex⟩ := computeScores_ok_mem hcs p hp'
      refine ⟨hscore ▸ hth, ?_⟩
      rw [getNote_id hnote]
      exact hex

/-- Claim C1: for every query vector and every options value, a `search`
call that returns does so with at most `limit` scored notes, each with a
score at or above `threshold` and an id outside `excludeIds`. -/
theorem search_limit_threshold_exclude (vs : VS) (q : List ℝ)
    (opts : SearchOptions) (vs' : VS) (res : List ScoredNote)
    (h : search vs q opts = (vs', .ok res)) :
    res.length ≤ opts.limit ∧
    ∀ n ∈ res, opts.threshold ≤ n.score ∧ n.note.id ∉ opts.excludeIds :=
  search_ok_bounds h

/-- Witness for C1: a concrete `search` over an empty store returns the
empty list, which satisfies all three bounds. -/
theorem search_limit_threshold_exclude_witness :
    search ⟨⟨[], []⟩, none, false⟩ [] {} =
      (⟨⟨[], []⟩, some [], true⟩, .ok []) ∧
    ([] : List ScoredNote).length ≤ (20 : Nat) := by
  have h : search ⟨⟨[], []⟩, none, false⟩ [] {} =
      (⟨⟨[], []⟩, some [], true⟩, .ok []) := by
    simp [search, searchOnCache, computeScores, sortDescBy, resolveNotes,
      refreshCache, getAllEmbeddings]
  exact ⟨h, (search_limit_threshold_exclude _ _ _ _ _ h).1⟩

/-- Claim C4: `invalidateCache` leaves the cached map in place, and the
next `search` behaves exactly as a search on a freshly refreshed cache,
rebuilding wholesale from the Record Store before scoring. -/
theorem invalidateCache_lazy_refresh (vs : VS) :
    (invalidateCache vs).embeddingCache = vs.embeddingCache ∧
    ∀ q opts, search (invalidateCache vs) q opts = search (refreshCache vs) q opts ∧
      (search (invalidateCache vs) q opts).1.embeddingCache =
        some (getAllEmbeddings vs.db) := by
  refine ⟨rfl, fun q opts => ?_⟩
  have h1 : search (invalidateCache vs) q opts = search (refreshCache vs) q opts := by
    simp [search, invalidateCache, refreshCache]
  refine ⟨h1, ?_⟩
  rw [h1]
  simp [search, refreshCache]

/-- Scored note as returned by `keywordSearch` and `tagSearch`, whose
scores are exact rationals. -/
structure KScoredNote where
  note : Note
  score : ℚ
  deriving Repr, DecidableEq

/-- Search blob of `keywordSearch`:
`(title + ' ' + content + ' ' + tags.join(' ')).toLowerCase()`. -/
def searchBlob (note : Note) : Str :=
  lowerStr (note.title ++ [' '] ++ note.content ++ [' '] ++
    List.intercalate [' '] note.tags)

/-- Per-note score loop of `keywordSearch`: for each (lowercased) term,
add the occurrence count in the blob, `+2` when the title contains the
term, `+1.5` when some tag contains it. -/
def kwNoteScore (keywordLower : List Str) (note : Note) : ℚ :=
  keywordLower.foldl (fun score k =>
    let withCount := score + (countOcc k (searchBlob note) : ℚ)
    let withTitle :=
      if containsSub k (lowerStr note.title) then withCount + 2 else withCount
    if note.tags.any (fun t => containsSub k (lowerStr t)) then withTitle + 3/2
    else withTitle) 0

/-- Idealized total model of `VectorSearch.keywordSearch`, counting
occurrences with the literal substring count `countOcc`; it agrees with
the faithful fallible model `keywordSearchJS` below exactly on terms
free of regex metacharacters (`keywordSearchJS_plain`). The hybrid
ranker consumes this list only through positions and note identities. -/
def keywordSearch (db : DB) (keywords : List Str) (limit : Nat) :
    List KScoredNote :=
  if keywords.isEmpty then []
  else
    let allNotes := getAllNotes db 1000
    let keywordLower := keywords.map lowerStr
    let scored := allNotes.map (fun note => (note, kwNoteScore keywordLower note))
    ((sortDescBy (fun p => p.2) (scored.filter (fun p => decide (0 < p.2)))).take
      limit).map (fun p => ⟨p.1, p.2 / (keywordLower.length : ℚ)⟩)

/-- Per-note keyword score as claim C5 states it: a sum over the terms
of the substring-occurrence count plus a `+2` title bonus and a `+1.5`
tag bonus. -/
def kwClaimScore (keywordLower : List Str) (note : Note) : ℚ :=
  (keywordLower.map (fun k =>
    (countOcc k (searchBlob note) : ℚ) +
    (if containsSub k (lowerStr note.title) then 2 else 0) +
    (if note.tags.any (fun t => containsSub k (lowerStr t)) then 3/2 else 0))).sum

/-- Atom of the modelled regular-expression fragment: a literal
character or the `.` wildcard. -/
inductive RAtom where
  | lit : Char → RAtom
  | anyChar : RAtom
  deriving Repr, DecidableEq

/-- Postfix quantifier of the modelled fragment: none, `+`, `*`, `?`. -/
inductive RQuant where
  | one : RQuant
  | plus : RQuant
  | star : RQuant
  | quest : RQuant
  deriving Repr, DecidableEq

/-- The quantifier a pattern character denotes, if any. -/
def quantOf (c : Char) : Option RQuant :=
  if c = '+' then some RQuant.plus
  else if c = '*' then some RQuant.star
  else if c = '?' then some RQuant.quest
  else none

/-- Regular-expression syntax outside the modelled fragment (groups,
classes, braces, escapes, anchors, alternation); `parseRegex`
conservatively rejects patterns containing these characters. Of them,
JavaScript itself rejects an unmatched `( ) [` and a trailing `\`. -/
def unsupportedChar (c : Char) : Bool :=
  c == '(' || c == ')' || c == '[' || c == ']' || c == '{' || c == '}' ||
  c == '\\' || c == '^' || c == '$' || c == '|'

/-- The JavaScript regex metacharacters — exactly the characters the
repository's own `escapeRegex` helper (used for highlighting, but not
by `keywordSearch`) escapes. A term avoiding all of them is matched
literally by `new RegExp`. -/
def specialChar (c : Char) : Bool :=
  unsupportedChar c || c == '.' || c == '*' || c == '+' || c == '?'

/-- A search term free of regex metacharacters. -/
def plainTerm (t : Str) : Bool := t.all (fun c => !specialChar c)

/-- The token a literal character compiles to. -/
def litTok (c : Char) : RAtom × RQuant := (RAtom.lit c, RQuant.one)

/-- Emit a pending atom (not followed by a quantifier) as a token. -/
def flushPending : Option RAtom → List (RAtom × RQuant)
  | none => []
  | some a => [(a, RQuant.one)]

/-- Scanner of `new RegExp(pattern)` over the modelled fragment,
carrying the previously read atom so a following quantifier can attach
to it. `none` models a `SyntaxError`: a quantifier with nothing to
repeat — as in `c++`, where the second `+` follows the already
quantified `c+` — or a character of unsupported syntax. -/
def parseRegexAux : Option RAtom → Str → Option (List (RAtom × RQuant))
  | pending, [] => some (flushPending pending)
  | pending, c :: rest =>
    match quantOf c with
    | some q =>
      match pending with
      | none => none
      | some a => (parseRegexAux none rest).map (fun ts => (a, q) :: ts)
    | none =>
      if unsupportedChar c then none
      else
        (parseRegexAux (some (if c = '.' then RAtom.anyChar else RAtom.lit c))
          rest).map (fun ts => flushPending pending ++ ts)

/-- Compilation of `new RegExp(pattern, 'gi')` for the modelled
fragment (the term is already lowercased by the caller, so the `i` flag
adds nothing). -/
def parseRegex (t : Str) : Option (List (RAtom × RQuant)) :=
  parseRegexAux none t

/-- Whether an atom matches a character; as in JavaScript, `.` does not
match a line terminator. -/
def atomMatches : RAtom → Char → Bool
  | RAtom.lit a, c => a == c
  | RAtom.anyChar, c => !(c == '\n' || c == '\r')

/-- Length of the maximal prefix of `s` whose characters all match the
atom — the most a greedy `*` or `+` can consume. -/
def runLen (a : RAtom) : Str → Nat
  | [] => 0
  | c :: t => if atomMatches a c then runLen a t + 1 else 0

/-- Leftmost greedy backtracking match of a token list at the start of
the text, as the JavaScript engine performs it; returns the length of
the match found, `none` if no match starts here. A quantified atom
tries the longest run first and backs off (`a+` consumes one character
and continues as `a*`). -/
def matchHere : List (RAtom × RQuant) → Str → Option Nat
  | [], _ => some 0
  | (a, RQuant.one) :: ts, s =>
    match s with
    | [] => none
    | c :: s' => if atomMatches a c then (matchHere ts s').map (· + 1) else none
  | (a, RQuant.quest) :: ts, s =>
    (match s with
     | [] => none
     | c :: s' =>
       if atomMatches a c then (matchHere ts s').map (· + 1) else none) <|>
    matchHere ts s
  | (a, RQuant.plus) :: ts, s =>
    match s with
    | [] => none
    | c :: s' =>
      if atomMatches a c then
        ((List.range (runLen a s' + 1)).reverse.findSome? (fun j =>
          (matchHere ts (s'.drop j)).map (fun m => j + m))).map (· + 1)
      else none
  | (a, RQuant.star) :: ts, s =>
    (List.range (runLen a s + 1)).reverse.findSome? (fun j =>
      (matchHere ts (s.drop j)).map (fun m => j + m))

/-- Scan of `searchText.match(regex)` with the `g` flag: count matches
left to right, resuming after each match and advancing one character
past an empty match, exactly as `lastIndex` moves; the `skip` counter
holds the tail of the previous match still to be stepped over. -/
def regexCountAux (ts : List (RAtom × RQuant)) : Str → Nat → Nat
  | [], _ => if (matchHere ts []).isSome then 1 else 0
  | _ :: t, skip + 1 => regexCountAux ts t skip
  | c :: t, 0 =>
    match matchHere ts (c :: t) with
    | none => regexCountAux ts t 0
    | some 0 => 1 + regexCountAux ts t 0
    | some (l + 1) => 1 + regexCountAux ts t l

/-- Number of matches `searchText.match(new RegExp(keyword, 'gi'))`
reports for a compiled pattern. -/
def regexCount (ts : List (RAtom × RQuant)) (s : Str) : Nat :=
  regexCountAux ts s 0

/-- Per-note score loop of `keywordSearch` as the source runs it: each
(lowercased) term is interpreted — unescaped — as a regular expression,
so an invalid pattern rejects (the `SyntaxError` thrown by
`new RegExp`); otherwise the match count of the pattern in the blob is
added, `+2` when the title contains the term, `+1.5` when some tag
contains it (the bonuses use `includes`, not the regex). -/
def kwNoteScoreJS (keywordLower : List Str) (note : Note) :
    Except String ℚ :=
  keywordLower.foldlM (fun score k =>
    match parseRegex k with
    | none => Except.error "Invalid regular expression"
    | some ts =>
      let withCount := score + (regexCount ts (searchBlob note) : ℚ)
      let withTitle :=
        if containsSub k (lowerStr note.title) then withCount + 2 else withCount
      Except.ok (if note.tags.any (fun t => containsSub k (lowerStr t))
        then withTitle + 3/2 else withTitle)) 0

/-- Model of `VectorSearch.keywordSearch` with the unescaped
`new RegExp(keyword, 'gi')` of the source kept fallible. The pattern is
built inside the per-note scoring loop, so with at least one note to
scan an invalid term rejects the whole call, while an empty store
returns `[]` without compiling any pattern. `keywordSearch` above is
the idealized total version; the two agree on metacharacter-free terms
(`keywordSearchJS_plain`). -/
def keywordSearchJS (db : DB) (keywords : List Str) (limit : Nat) :
    Except String (List KScoredNote) :=
  if keywords.isEmpty then Except.ok []
  else
    let keywordLower := keywords.map lowerStr
    ((getAllNotes db 1000).mapM (fun note =>
      (kwNoteScoreJS keywordLower note).map (fun s => (note, s)))).map
      (fun scored =>
        ((sortDescBy (fun p => p.2) (scored.filter
          (fun p => decide (0 < p.2)))).take limit).map
          (fun p => ⟨p.1, p.2 / (keywordLower.length : ℚ)⟩))

lemma kwNoteScore_aux (note : Note) : ∀ (L : List Str) (z : ℚ),
    L.foldl (fun score k =>
      let withCount := score + (countOcc k (searchBlob note) : ℚ)
      let withTitle :=
        if containsSub k (lowerStr note.title) then withCount + 2 else withCount
      if note.tags.any (fun t => containsSub k (lowerStr t)) then withTitle + 3/2
      else withTitle) z
      = z + kwClaimScore L note := by
  intro L
  induction L with
  | nil => intro z; simp [kwClaimScore]
  | cons k t ih =>
    intro z
    rw [List.foldl_cons, ih]
    simp only [kwClaimScore, List.map_cons, List.sum_cons]
    by_cases h1 : containsSub k (lowerStr note.title) <;>
      by_cases h2 : note.tags.any (fun t => containsSub k (lowerStr t)) = true <;>
      simp only [h1, h2, if_true, if_false, Bool.false_eq_true] <;> ring

lemma kwNoteScore_eq (keywordLower : List Str) (note : Note) :
    kwNoteScore keywordLower note = kwClaimScore keywordLower note := by
  rw [kwNoteScore, kwNoteScore_aux note keywordLower 0, zero_add]

lemma length_filter_scored {α : Type} (p : α → ℚ) (l : List α) :
    ((l.map (fun x => (x, p x))).filter (fun q => decide (0 < q.2))).length
      = l.countP (fun x => decide (0 < p x)) := by
  induction l with
  | nil => simp
  | cons x t ih =>
    by_cases h : 0 < p x
    · simp [List.countP_cons, h, ih]
    · simp [List.countP_cons, h, ih]

/-- Characterization of the idealized `keywordSearch` pipeline: the
empty list on empty terms; otherwise exactly the scanned notes whose
summed per-term score (substring-occurrence count, `+2` title bonus,
`+1.5` tag bonus) is positive, sorted descending, truncated to `limit`,
each surviving score divided by the term count. -/
theorem keywordSearch_spec (db : DB) (keywords : List Str) (limit : Nat) :
    (keywords = [] → keywordSearch db keywords limit = []) ∧
    (keywords ≠ [] →
      (keywordSearch db keywords limit).length
        = min limit ((getAllNotes db 1000).countP
            (fun n => decide (0 < kwClaimScore (keywords.map lowerStr) n))) ∧
      (∀ x ∈ keywordSearch db keywords limit,
        x.note ∈ getAllNotes db 1000 ∧
        0 < kwClaimScore (keywords.map lowerStr) x.note ∧
        x.score = kwClaimScore (keywords.map lowerStr) x.note /
          (keywords.length : ℚ)) ∧
      ((keywordSearch db keywords limit).map (fun x => x.score)).Pairwise
        (fun a b => b ≤ a)) := by
  constructor
  · intro h
    simp [keywordSearch, h]
  · intro hne
    have hlen : 0 < ((keywords.map lowerStr).length : ℚ) := by
      have h0 : keywords.length ≠ 0 := by
        simpa using (List.length_pos.mpr hne).ne'
      have : 0 < (keywords.map lowerStr).length := by
        simpa [List.length_map] using Nat.pos_of_ne_zero h0
      exact_mod_cast this
    have hkw : keywords.isEmpty = false := by
      simpa [List.isEmpty_iff] using hne
    have hscore : ∀ n, kwNoteScore (keywords.map lowerStr) n
        = kwClaimScore (keywords.map lowerStr) n :=
      kwNoteScore_eq (keywords.map lowerStr)
    refine ⟨?_, ?_, ?_⟩
    · simp only [keywordSearch, hkw, Bool.false_eq_true, if_false,
        List.length_map, List.length_take]
      congr 1
      rw [((sortDescBy_perm (fun p : Note × ℚ => p.2) _)).length_eq]
      rw [length_filter_scored (kwNoteScore (keywords.map lowerStr))
        (getAllNotes db 1000)]
      exact List.countP_congr (fun n _ => by simp [hscore n])
    · intro x hx
      simp only [keywordSearch, hkw, Bool.false_eq_true, if_false,
        List.mem_map] at hx
      obtain ⟨p, hp, rfl⟩ := hx
      have hp1 : p ∈ sortDescBy (fun p : Note × ℚ => p.2)
          (((getAllNotes db 1000).map
            (fun note => (note, kwNoteScore (keywords.map lowerStr) note))).filter
              (fun q => decide (0 < q.2))) := List.mem_of_mem_take hp
      have hp2 := (mem_sortDescBy _ _ _).mp hp1
      have hp3 := List.mem_filter.mp hp2
      obtain ⟨note, hnote, hpe⟩ := List.mem_map.mp hp3.1
      have hpos : 0 < p.2 := by simpa using hp3.2
      subst hpe
      refine ⟨hnote, ?_, ?_⟩
      · rw [← hscore note]; exact hpos
      · simp [hscore note, List.length_map]
    · simp only [keywordSearch, hkw, Bool.false_eq_true, if_false]
      rw [List.map_map]
      refine List.Pairwise.map _ ?_
        ((sortDescBy_pairwise (fun p : Note × ℚ => p.2) _).sublist
          (List.take_sublist _ _))
      intro a b hab
      simp only [Function.comp]
      exact div_le_div_of_nonneg_right hab hlen.le

lemma plainTerm_cons {c : Char} {t : Str} (h : plainTerm (c :: t) = true) :
    specialChar c = false ∧ plainTerm t = true := by
  simp only [plainTerm, List.all_cons, Bool.and_eq_true, Bool.not_eq_true'] at h
  exact ⟨h.1, h.2⟩

lemma plain_head_facts {c : Char} (h : specialChar c = false) :
    quantOf c = none ∧ unsupportedChar c = false ∧ c ≠ '.' := by
  simp only [specialChar, Bool.or_eq_false_iff, beq_eq_false_iff_ne, ne_eq] at h
  obtain ⟨⟨⟨⟨hu, hdot⟩, hstar⟩, hplus⟩, hquest⟩ := h
  refine ⟨?_, hu, hdot⟩
  simp [quantOf, hplus, hstar, hquest]

lemma except_map_ok {α β : Type} (f : α → β) (x : α) :
    Except.map f (Except.ok x : Except String α) = Except.ok (f x) := rfl

lemma except_map_err {α β : Type} (f : α → β) (e : String) :
    Except.map f (Except.error e : Except String α)
      = (Except.error e : Except String β) := rfl

lemma except_bind_ok {α β : Type} (x : α) (f : α → Except String β) :
    (Except.ok x : Except String α) >>= f = f x := rfl

lemma except_bind_err {α β : Type} (e : String) (f : α → Except String β) :
    (Except.error e : Except String α) >>= f
      = (Except.error e : Except String β) := rfl

lemma except_pure {α : Type} (x : α) :
    (pure x : Except String α) = Except.ok x := rfl

/-- A metacharacter-free pattern compiles to its literal characters. -/
lemma parseRegexAux_plain : ∀ (t : Str), plainTerm t = true →
    ∀ (pending : Option RAtom),
    parseRegexAux pending t = some (flushPending pending ++ t.map litTok) := by
  intro t
  induction t with
  | nil => intro _ pending; simp [parseRegexAux]
  | cons c rest ih =>
    intro h pending
    obtain ⟨hc, ht⟩ := plainTerm_cons h
    obtain ⟨hq, hu, hd⟩ := plain_head_facts hc
    rw [parseRegexAux, hq, hu]
    simp only [Bool.false_eq_true, if_false, if_neg hd]
    rw [ih ht (some (RAtom.lit c))]
    simp [flushPending, litTok]

lemma parseRegex_plain {t : Str} (h : plainTerm t = true) :
    parseRegex t = some (t.map litTok) := by
  rw [parseRegex, parseRegexAux_plain t h none]
  simp [flushPending]

/-- A literal token list matches exactly where the word is a prefix. -/
lemma matchHere_lits : ∀ (p s : Str),
    matchHere (p.map litTok) s
      = if p.isPrefixOf s then some p.length else none := by
  intro p
  induction p with
  | nil => intro s; simp [matchHere, List.isPrefixOf]
  | cons c pt ih =>
    intro s
    cases s with
    | nil => simp [matchHere, litTok, List.isPrefixOf]
    | cons d st =>
      simp only [List.map_cons, litTok, matchHere, atomMatches, List.isPrefixOf]
      by_cases hcd : (c == d) = true
      · simp only [if_pos hcd, ih st, hcd, Bool.true_and]
        by_cases hp : pt.isPrefixOf st
        · simp [hp]
        · simp [hp]
      · have hcd2 : (c == d) = false := by simpa using hcd
        simp [hcd2]

/-- On a literal token list the regex scan is the substring scan. -/
lemma regexCountAux_lits (a : Char) (as : Str) : ∀ (h : Str) (skip : Nat),
    regexCountAux ((a :: as).map litTok) h skip = countOccAux (a :: as) h skip := by
  intro h
  induction h with
  | nil =>
    intro skip
    rw [regexCountAux, matchHere_lits]
    simp [countOccAux, List.isPrefixOf]
  | cons c t ih =>
    intro skip
    cases skip with
    | succ k => rw [regexCountAux, countOccAux, ih k]
    | zero =>
      rw [regexCountAux, countOccAux, matchHere_lits]
      by_cases hp : (a :: as).isPrefixOf (c :: t)
      · rw [if_pos hp, if_pos hp]
        simp only [List.length_cons]
        rw [ih as.length]
        simp
      · rw [if_neg hp, if_neg hp, ih 0]

lemma regexCountAux_nil : ∀ (h : Str),
    regexCountAux ([] : List (RAtom × RQuant)) h 0 = h.length + 1 := by
  intro h
  induction h with
  | nil => rw [regexCountAux]; simp [matchHere]
  | cons c t ih =>
    rw [regexCountAux]
    simp only [matchHere]
    rw [ih]
    simp [List.length_cons]
    omega

/-- A metacharacter-free term is counted by the regex exactly as by the
literal substring count. -/
lemma regexCount_lits (p h : Str) :
    regexCount (p.map litTok) h = countOcc p h := by
  cases p with
  | nil => rw [regexCount, countOcc]; simp [regexCountAux_nil]
  | cons a as =>
    rw [regexCount, countOcc, regexCountAux_lits]
    simp

lemma kwNoteScoreJS_aux (note : Note) : ∀ (L : List Str),
    (∀ t ∈ L, plainTerm t = true) → ∀ (z : ℚ),
    L.foldlM (fun score k =>
      match parseRegex k with
      | none => (Except.error "Invalid regular expression" : Except String ℚ)
      | some ts =>
        let withCount := score + (regexCount ts (searchBlob note) : ℚ)
        let withTitle :=
          if containsSub k (lowerStr note.title) then withCount + 2 else withCount
        Except.ok (if note.tags.any (fun t => containsSub k (lowerStr t))
          then withTitle + 3/2 else withTitle)) z
      = Except.ok (L.foldl (fun score k =>
          let withCount := score + (countOcc k (searchBlob note) : ℚ)
          let withTitle :=
            if containsSub k (lowerStr note.title) then withCount + 2 else withCount
          if note.tags.any (fun t => containsSub k (lowerStr t)) then withTitle + 3/2
          else withTitle) z) := by
  intro L
  induction L with
  | nil => intro _ z; rfl
  | cons k t ih =>
    intro hpl z
    rw [List.foldlM_cons, List.foldl_cons]
    rw [parseRegex_plain (hpl k (List.mem_cons_self k t))]
    simp only [regexCount_lits]
    exact ih (fun x hx => hpl x (List.mem_cons_of_mem k hx)) _

/-- On metacharacter-free terms the per-note loop with real patterns
computes exactly the idealized substring-count score. -/
lemma kwNoteScoreJS_plain (keywordLower : List Str) (note : Note)
    (h : ∀ t ∈ keywordLower, plainTerm t = true) :
    kwNoteScoreJS keywordLower note
      = Except.ok (kwNoteScore keywordLower note) := by
  rw [kwNoteScoreJS, kwNoteScore]
  exact kwNoteScoreJS_aux note keywordLower h 0

lemma kwNoteScoreJS_invalid_aux (note : Note) : ∀ (L : List Str),
    (∃ k ∈ L, parseRegex k = none) → ∀ (z : ℚ),
    L.foldlM (fun score k =>
      match parseRegex k with
      | none => (Except.error "Invalid regular expression" : Except String ℚ)
      | some ts =>
        let withCount := score + (regexCount ts (searchBlob note) : ℚ)
        let withTitle :=
          if containsSub k (lowerStr note.title) then withCount + 2 else withCount
        Except.ok (if note.tags.any (fun t => containsSub k (lowerStr t))
          then withTitle + 3/2 else withTitle)) z
      = Except.error "Invalid regular expression" := by
  intro L
  induction L with
  | nil => intro h z; exact absurd h (by simp)
  | cons k t ih =>
    intro h z
    rw [List.foldlM_cons]
    cases hk : parseRegex k with
    | none => simp only [hk]; rfl
    | some ts =>
      obtain ⟨k0, hk0m, hk0⟩ := h
      rcases List.mem_cons.mp hk0m with rfl | hmem
      · rw [hk] at hk0; cases hk0
      · simp only [hk]
        exact ih ⟨k0, hmem, hk0⟩ _

/-- A term that fails to compile rejects the per-note loop. -/
lemma kwNoteScoreJS_invalid (keywordLower : List Str) (note : Note)
    (h : ∃ k ∈ keywordLower, parseRegex k = none) :
    kwNoteScoreJS keywordLower note
      = Except.error "Invalid regular expression" := by
  rw [kwNoteScoreJS]
  exact kwNoteScoreJS_invalid_aux note keywordLower h 0

/-- A `mapM` whose effect always succeeds is the pure map. -/
lemma mapM_ok {α β : Type} (f : α → Except String β) (g : α → β) :
    ∀ (l : List α), (∀ x ∈ l, f x = Except.ok (g x)) →
    l.mapM f = Except.ok (l.map g) := by
  intro l
  induction l with
  | nil => intro _; rfl
  | cons a t ih =>
    intro h
    simp only [List.mapM_cons, h a (List.mem_cons_self a t),
      ih (fun x hx => h x (List.mem_cons_of_mem a hx)), List.map_cons]
    rfl

/-- A `mapM` whose effect fails on the first element fails. -/
lemma mapM_error_head {α β : Type} (f : α → Except String β) (a : α)
    (t : List α) (e : String) (h : f a = Except.error e) :
    (a :: t).mapM f = Except.error e := by
  simp only [List.mapM_cons, h]
  rfl

/-- On metacharacter-free terms the fallible model succeeds and returns
exactly the idealized `keywordSearch` output. -/
lemma keywordSearchJS_plain (db : DB) (keywords : List Str) (limit : Nat)
    (h : ∀ t ∈ keywords.map lowerStr, plainTerm t = true) :
    keywordSearchJS db keywords limit
      = Except.ok (keywordSearch db keywords limit) := by
  by_cases hk : keywords.isEmpty
  · rw [keywordSearchJS, keywordSearch, if_pos hk, if_pos hk]
  · have hk2 : keywords.isEmpty = false := by simpa using hk
    have hmm := mapM_ok
      (fun note => (kwNoteScoreJS (keywords.map lowerStr) note).map
        (fun s => (note, s)))
      (fun note => (note, kwNoteScore (keywords.map lowerStr) note))
      (getAllNotes db 1000)
      (fun note _ => by
        show (kwNoteScoreJS (keywords.map lowerStr) note).map
          (fun s => (note, s)) = _
        rw [kwNoteScoreJS_plain _ _ h]
        exact except_map_ok _ _)
    simp only [keywordSearchJS, keywordSearch, hk2, Bool.false_eq_true,
      if_false, hmm, except_map_ok]

/-- An invalid term plus a nonempty scan rejects the whole call. -/
lemma keywordSearchJS_invalid (db : DB) (keywords : List Str) (limit : Nat)
    (hk : ∃ k ∈ keywords.map lowerStr, parseRegex k = none)
    (hn : getAllNotes db 1000 ≠ []) :
    keywordSearchJS db keywords limit
      = Except.error "Invalid regular expression" := by
  have hne : keywords.isEmpty = false := by
    rcases hk with ⟨k, hkm, _⟩
    rcases keywords with _ | ⟨a, t⟩
    · simp at hkm
    · simp
  cases hgh : getAllNotes db 1000 with
  | nil => exact absurd hgh hn
  | cons n rest =>
    have hmm := mapM_error_head
      (fun note => (kwNoteScoreJS (keywords.map lowerStr) note).map
        (fun s => (note, s)))
      n rest "Invalid regular expression"
      (by
        show (kwNoteScoreJS (keywords.map lowerStr) n).map
          (fun s => (n, s)) = _
        rw [kwNoteScoreJS_invalid _ _ hk]
        exact except_map_err _ _)
    simp only [keywordSearchJS, hne, Bool.false_eq_true, if_false, hgh, hmm,
      except_map_err]

/-- A note whose title is `node js`, to be matched against the search
term `node.js` (whose `.` is a wildcard to `new RegExp`). -/
def nodeNote : Note := ⟨"n", "node js".toList, [], []⟩

/-- Single-note store for the `node.js` counterexample. -/
def nodeDb : DB := ⟨[nodeNote], []⟩

/-- Counterexample to claim C5 as stated: the code's occurrence count
is the match count of the term as an unescaped regular expression, not
a substring count. For the term `node.js` and a note titled `node js`,
the claimed per-term score is `0` — the claimed pipeline drops the note
and yields `[]` (third conjunct, the idealized pipeline being exactly
the claimed formula) — while the faithful model returns the note with
score `1`, the `.` having matched the space; and on the term `c++` the
faithful model throws instead of returning a list. -/
theorem keywordSearch_regex_counterexample :
    keywordSearchJS nodeDb ["node.js".toList] 20
      = Except.ok [⟨nodeNote, 1⟩] ∧
    kwClaimScore (["node.js".toList].map lowerStr) nodeNote = 0 ∧
    keywordSearch nodeDb ["node.js".toList] 20 = [] ∧
    keywordSearchJS nodeDb ["c++".toList] 20
      = Except.error "Invalid regular expression" := by
  have hlow : lowerStr "node.js".toList = "node.js".toList := by decide
  have hp : parseRegex "node.js".toList
      = some [(RAtom.lit 'n', RQuant.one), (RAtom.lit 'o', RQuant.one),
        (RAtom.lit 'd', RQuant.one), (RAtom.lit 'e', RQuant.one),
        (RAtom.anyChar, RQuant.one), (RAtom.lit 'j', RQuant.one),
        (RAtom.lit 's', RQuant.one)] := by decide
  have hcnt : regexCount [(RAtom.lit 'n', RQuant.one), (RAtom.lit 'o', RQuant.one),
      (RAtom.lit 'd', RQuant.one), (RAtom.lit 'e', RQuant.one),
      (RAtom.anyChar, RQuant.one), (RAtom.lit 'j', RQuant.one),
      (RAtom.lit 's', RQuant.one)] (searchBlob nodeNote) = 1 := by decide
  have hc0 : countOcc "node.js".toList (searchBlob nodeNote) = 0 := by decide
  have htitle : containsSub "node.js".toList (lowerStr nodeNote.title) = false := by
    decide
  have htag : nodeNote.tags.any
      (fun t => containsSub "node.js".toList (lowerStr t)) = false := by decide
  have hclaim : kwClaimScore (["node.js".toList].map lowerStr) nodeNote = 0 := by
    simp only [kwClaimScore, List.map_cons, List.map_nil, hlow, hc0, htitle, htag,
      Bool.false_eq_true, if_false, List.sum_cons, List.sum_nil]
    norm_num
  have hk1 : kwNoteScoreJS ["node.js".toList] nodeNote = Except.ok 1 := by
    simp only [kwNoteScoreJS, List.foldlM_cons, List.foldlM_nil, hp, hcnt,
      htitle, htag, Bool.false_eq_true, if_false]
    norm_num
  have hsc : kwNoteScore ["node.js".toList] nodeNote = 0 := by
    simp only [kwNoteScore, List.foldl_cons, List.foldl_nil, hc0, htitle, htag,
      Bool.false_eq_true, if_false]
    norm_num
  have d0 : decide ((0 : ℚ) < 0) = false := by
    rw [decide_eq_false_iff_not]
    norm_num
  have d1 : decide ((0 : ℚ) < 1) = true := by
    rw [decide_eq_true_eq]
    norm_num
  have hnotes : getAllNotes nodeDb 1000 = [nodeNote] := rfl
  refine ⟨?_, hclaim, ?_, ?_⟩
  · simp only [keywordSearchJS, List.isEmpty_cons, Bool.false_eq_true, if_false,
      hnotes, List.map_cons, List.map_nil, hlow, List.mapM_cons, List.mapM_nil,
      hk1, except_map_ok, except_bind_ok, except_pure, List.filter_cons,
      List.filter_nil, d1, if_true]
    rw [show sortDescBy (fun p : Note × ℚ => p.2) [(nodeNote, 1)]
      = [(nodeNote, 1)] from rfl]
    rw [List.take_of_length_le (by norm_num)]
    simp only [List.map_cons, List.map_nil, List.length_cons, List.length_nil,
      Except.ok.injEq]
    norm_num
  · simp only [keywordSearch, List.isEmpty_cons, Bool.false_eq_true, if_false,
      hnotes, List.map_cons, List.map_nil, hlow, hsc]
    rw [List.filter_cons, List.filter_nil]
    simp [d0, sortDescBy]
  · exact keywordSearchJS_invalid nodeDb ["c++".toList] 20
      ⟨lowerStr "c++".toList, by simp, by decide⟩ (by decide)

/-- Claim C5 as amended: the empty-terms clause is unchanged; the
claimed substring-count formula holds whenever every term is free of
regex metacharacters, in which case the fallible model returns exactly
the idealized pipeline; and a term that fails to compile makes
`keywordSearch` throw as soon as there is a note to scan. -/
theorem keywordSearchJS_spec_amended (db : DB) (keywords : List Str)
    (limit : Nat) :
    (keywords = [] → keywordSearchJS db keywords limit = Except.ok []) ∧
    ((∀ t ∈ keywords.map lowerStr, plainTerm t = true) →
      keywordSearchJS db keywords limit
        = Except.ok (keywordSearch db keywords limit) ∧
      (keywords ≠ [] →
        (keywordSearch db keywords limit).length
          = min limit ((getAllNotes db 1000).countP
              (fun n => decide (0 < kwClaimScore (keywords.map lowerStr) n))) ∧
        (∀ x ∈ keywordSearch db keywords limit,
          x.note ∈ getAllNotes db 1000 ∧
          0 < kwClaimScore (keywords.map lowerStr) x.note ∧
          x.score = kwClaimScore (keywords.map lowerStr) x.note /
            (keywords.length : ℚ)) ∧
        ((keywordSearch db keywords limit).map (fun x => x.score)).Pairwise
          (fun a b => b ≤ a))) ∧
    ((∃ k ∈ keywords.map lowerStr, parseRegex k = none) →
      getAllNotes db 1000 ≠ [] →
      keywordSearchJS db keywords limit
        = Except.error "Invalid regular expression") := by
  refine ⟨?_, ?_, ?_⟩
  · intro h
    subst h
    rfl
  · intro hpl
    exact ⟨keywordSearchJS_plain db keywords limit hpl,
      fun hne => (keywordSearch_spec db keywords limit).2 hne⟩
  · intro hk hn
    exact keywordSearchJS_invalid db keywords limit hk hn

/-- Two-note store for the amended-C5 witness. -/
def pastaDb : DB := ⟨[⟨"b", "cooking pasta".toList, "recipes".toList, []⟩,
  ⟨"a", "ml basics".toList, "neural nets".toList, []⟩], []⟩

/-- Witness for amended C5: the empty-terms clause at `[]`, the
metacharacter-free clause at the concrete query `["pasta"]`, and the
throwing clause at `["c++"]`, over a concrete store. -/
theorem keywordSearchJS_spec_amended_witness :
    keywordSearchJS pastaDb [] 20 = Except.ok [] ∧
    keywordSearchJS pastaDb ["pasta".toList] 20
      = Except.ok (keywordSearch pastaDb ["pasta".toList] 20) ∧
    keywordSearchJS pastaDb ["c++".toList] 20
      = Except.error "Invalid regular expression" :=
  ⟨(keywordSearchJS_spec_amended pastaDb [] 20).1 rfl,
   ((keywordSearchJS_spec_amended pastaDb ["pasta".toList] 20).2.1
     (by decide)).1,
   (keywordSearchJS_spec_amended pastaDb ["c++".toList] 20).2.2
     ⟨lowerStr "c++".toList, by simp, by decide⟩ (by decide)⟩

/-- Per-note score loop of `tagSearch`: for each term and each tag, if
the lowercased tag contains the term, add `2` on exact equality and `1`
otherwise. -/
def tagNoteScore (termLower : List Str) (note : Note) : ℚ :=
  termLower.foldl (fun score term =>
    note.tags.foldl (fun score tag =>
      if containsSub term (lowerStr tag) then
        score + (if lowerStr tag = term then 2 else 1)
      else score) score) 0

/-- Model of `VectorSearch.tagSearch`. -/
def tagSearch (db : DB) (tagTerms : List Str) (limit : Nat) :
    List KScoredNote :=
  if tagTerms.isEmpty then []
  else
    let allNotes := getAllNotes db 1000
    let termLower := tagTerms.map lowerStr
    let scored := allNotes.map (fun n => (n, tagNoteScore termLower n))
    ((sortDescBy (fun p => p.2) (scored.filter (fun p => decide (0 < p.2)))).take
      limit).map (fun p => ⟨p.1, p.2⟩)

/-- Per-note tag score as claim C7 states it: `+2` per case-insensitive
exact tag match, `+1` per mere substring containment, summed over terms
and tags. -/
def tagClaimScore (termLower : List Str) (note : Note) : ℚ :=
  (termLower.map (fun term =>
    (note.tags.map (fun tag =>
      if lowerStr tag = term then (2 : ℚ)
      else if containsSub term (lowerStr tag) then 1 else 0)).sum)).sum

lemma containsSub_refl (s : Str) : containsSub s s = true := by
  cases s with
  | nil => rfl
  | cons c t =>
    rw [containsSub]
    have : (c :: t).isPrefixOf (c :: t) = true :=
      List.isPrefixOf_iff_prefix.mpr (List.prefix_refl _)
    simp [this]

lemma tagNoteScore_inner_aux (term : Str) (tags : List Str) :
    ∀ z : ℚ, tags.foldl (fun score tag =>
      if containsSub term (lowerStr tag) then
        score + (if lowerStr tag = term then 2 else 1)
      else score) z
      = z + (tags.map (fun tag =>
          if lowerStr tag = term then (2 : ℚ)
          else if containsSub term (lowerStr tag) then 1 else 0)).sum := by
  induction tags with
  | nil => intro z; simp
  | cons tag t ih =>
    intro z
    rw [List.foldl_cons, ih]
    simp only [List.map_cons, List.sum_cons]
    by_cases he : lowerStr tag = term
    · simp only [he, containsSub_refl, eq_self_iff_true, if_true]
      ring
    · by_cases hc : containsSub term (lowerStr tag) = true
      · simp only [hc, he, if_true, if_false]
        ring
      · simp only [hc, he, Bool.false_eq_true, if_false]
        ring

lemma tagNoteScore_eq (termLower : List Str) (note : Note) :
    tagNoteScore termLower note = tagClaimScore termLower note := by
  suffices h : ∀ z : ℚ, termLower.foldl (fun score term =>
      note.tags.foldl (fun score tag =>
        if containsSub term (lowerStr tag) then
          score + (if lowerStr tag = term then 2 else 1)
        else score) score) z
      = z + tagClaimScore termLower note by
    simpa [tagNoteScore] using h 0
  induction termLower with
  | nil => intro z; simp [tagClaimScore]
  | cons term t ih =>
    intro z
    rw [List.foldl_cons, tagNoteScore_inner_aux term note.tags z, ih]
    simp only [tagClaimScore, List.map_cons, List.sum_cons]
    ring

/-- First concrete note of the C7 scenario: tagged exactly
`javascript`. -/
def jsNoteA : Note := ⟨"a", [], [], ["javascript".toList]⟩

/-- Second concrete note of the C7 scenario: tagged only
`javascript-frameworks`. -/
def jsNoteB : Note := ⟨"b", [], [], ["javascript-frameworks".toList]⟩

/-- Concrete store of the C7 scenario, deliberately listing the
substring-only note first. -/
def jsDb : DB := ⟨[jsNoteB, jsNoteA], []⟩

lemma tagSearch_js :
    tagSearch jsDb ["javascript".toList] 20 = [⟨jsNoteA, 2⟩, ⟨jsNoteB, 1⟩] := by
  have e1 : lowerStr "javascript".toList = "javascript".toList := by decide
  have hA : tagNoteScore ["javascript".toList] jsNoteA = 2 := by
    simp only [tagNoteScore, jsNoteA, List.foldl_cons, List.foldl_nil, e1,
      containsSub_refl, eq_self_iff_true, if_true, zero_add]
  have hB : tagNoteScore ["javascript".toList] jsNoteB = 1 := by
    have c2 : containsSub "javascript".toList
        (lowerStr "javascript-frameworks".toList) = true := by decide
    have ne2 : ¬ lowerStr "javascript-frameworks".toList
        = "javascript".toList := by decide
    simp only [tagNoteScore, jsNoteB, List.foldl_cons, List.foldl_nil, c2,
      eq_false ne2, eq_self_iff_true, if_true, if_false, zero_add]
  have hnotes : getAllNotes jsDb 1000 = [jsNoteB, jsNoteA] := by decide
  have d1 : decide ((0 : ℚ) < 1) = true := by
    rw [decide_eq_true_eq]; norm_num
  have d2 : decide ((0 : ℚ) < 2) = true := by
    rw [decide_eq_true_eq]; norm_num
  have lt12 : (1 : ℚ) < 2 := by norm_num
  simp only [tagSearch, List.isEmpty, Bool.false_eq_true, if_false, hnotes,
    List.map_cons, List.map_nil, e1, hA, hB]
  rw [List.filter_cons, List.filter_cons, List.filter_nil]
  simp only [d1, d2, if_true]
  rw [show sortDescBy (fun p : Note × ℚ => p.2) [(jsNoteB, 1), (jsNoteA, 2)]
      = [(jsNoteA, 2), (jsNoteB, 1)] by
    simp [sortDescBy, insertDescBy, lt12]]
  rw [List.take_of_length_le (by norm_num)]
  simp

/-- Claim C7: `tagSearch` scores each note by summing `+2` per exact
(case-insensitive) tag match and `+1` per mere substring containment,
keeps positive scores, sorts descending, truncates; concretely, a note
tagged exactly `javascript` ranks above one tagged only
`javascript-frameworks`. -/
theorem tagSearch_spec (db : DB) (tagTerms : List Str) (limit : Nat) :
    (tagTerms = [] → tagSearch db tagTerms limit = []) ∧
    (tagTerms ≠ [] →
      (tagSearch db tagTerms limit).length
        = min limit ((getAllNotes db 1000).countP
            (fun n => decide (0 < tagClaimScore (tagTerms.map lowerStr) n))) ∧
      (∀ x ∈ tagSearch db tagTerms limit,
        x.note ∈ getAllNotes db 1000 ∧
        0 < tagClaimScore (tagTerms.map lowerStr) x.note ∧
        x.score = tagClaimScore (tagTerms.map lowerStr) x.note) ∧
      ((tagSearch db tagTerms limit).map (fun x => x.score)).Pairwise
        (fun a b => b ≤ a)) ∧
    (tagSearch jsDb ["javascript".toList] 20).map (fun x => x.note.id)
      = ["a", "b"] := by
  refine ⟨?_, ?_, ?_⟩
  · intro h
    simp [tagSearch, h]
  · intro hne
    have hkw : tagTerms.isEmpty = false := by
      simpa [List.isEmpty_iff] using hne
    have hscore : ∀ n, tagNoteScore (tagTerms.map lowerStr) n
        = tagClaimScore (tagTerms.map lowerStr) n :=
      tagNoteScore_eq (tagTerms.map lowerStr)
    refine ⟨?_, ?_, ?_⟩
    · simp only [tagSearch, hkw, Bool.false_eq_true, if_false,
        List.length_map, List.length_take]
      congr 1
      rw [((sortDescBy_perm (fun p : Note × ℚ => p.2) _)).length_eq]
      rw [length_filter_scored (tagNoteScore (tagTerms.map lowerStr))
        (getAllNotes db 1000)]
      exact List.countP_congr (fun n _ => by simp [hscore n])
    · intro x hx
      simp only [tagSearch, hkw, Bool.false_eq_true, if_false,
        List.mem_map] at hx
      obtain ⟨p, hp, rfl⟩ := hx
      have hp1 : p ∈ sortDescBy (fun p : Note × ℚ => p.2)
          (((getAllNotes db 1000).map
            (fun n => (n, tagNoteScore (tagTerms.map lowerStr) n))).filter
              (fun q => decide (0 < q.2))) := List.mem_of_mem_take hp
      have hp2 := (mem_sortDescBy _ _ _).mp hp1
      have hp3 := List.mem_filter.mp hp2
      obtain ⟨note, hnote, hpe⟩ := List.mem_map.mp hp3.1
      have hpos : 0 < p.2 := by simpa using hp3.2
      subst hpe
      exact ⟨hnote, by rw [← hscore note]; exact hpos, by simp [hscore note]⟩
    · simp only [tagSearch, hkw, Bool.false_eq_true, if_false]
      rw [List.map_map]
      refine List.Pairwise.map _ ?_
        ((sortDescBy_pairwise (fun p : Note × ℚ => p.2) _).sublist
          (List.take_sublist _ _))
      intro a b hab
      simpa using hab
  · rw [tagSearch_js]
    simp [jsNoteA, jsNoteB]

/-- Witness for C7: the empty-terms clause at `[]` and the non-empty
clause at the concrete query `["javascript"]` over the two-note
store. -/
theorem tagSearch_spec_witness :
    tagSearch jsDb [] 20 = [] ∧
    ((tagSearch jsDb ["javascript".toList] 20).length
        = min 20 ((getAllNotes jsDb 1000).countP
            (fun n => decide (0 < tagClaimScore
              (["javascript".toList].map lowerStr) n))) ∧
      (∀ x ∈ tagSearch jsDb ["javascript".toList] 20,
        x.note ∈ getAllNotes jsDb 1000 ∧
        0 < tagClaimScore (["javascript".toList].map lowerStr) x.note ∧
        x.score = tagClaimScore (["javascript".toList].map lowerStr) x.note) ∧
      ((tagSearch jsDb ["javascript".toList] 20).map (fun x => x.score)).Pairwise
        (fun a b => b ≤ a)) :=
  ⟨(tagSearch_spec jsDb [] 20).1 rfl,
   (tagSearch_spec jsDb ["javascript".toList] 20).2.1 (by decide)⟩

/-- Model of `VectorSearch.findSimilar`: look up the note's own
embedding; when absent return the empty list; otherwise `search` with
that vector, threshold `0.5`, the note itself excluded, and `limit + 1`
requested. -/
noncomputable def findSimilar (vs : VS) (noteId : String) (limit : Nat) :
    VS × Except String (List ScoredNote) :=
  match getEmbedding vs.db noteId with
  | none => (vs, .ok [])
  | some emb =>
    search vs emb.vector
      { limit := limit + 1, threshold := 1/2, excludeIds := [noteId] }

lemma cos_one_one : cosineSimilarity [1] [1] = .ok 1 := by
  norm_num [cosineSimilarity, normSqL, dotL, Real.sqrt_one]

/-- Counterexample to C6 as stated: with three notes `a`, `b`, `c`
whose embeddings are all `[1]`, `findSimilar "a" 1` returns two scored
notes — more than `limit = 1` — because the code requests `limit + 1`
from `search` and excludes the note itself before, not after, the
truncation. -/
theorem findSimilar_limit_counterexample :
    (findSimilar ⟨⟨[⟨"a", [], [], []⟩, ⟨"b", [], [], []⟩, ⟨"c", [], [], []⟩],
        [("a", ⟨[1]⟩), ("b", ⟨[1]⟩), ("c", ⟨[1]⟩)]⟩, none, false⟩ "a" 1).2
      = .ok [⟨⟨"b", [], [], []⟩, 1⟩, ⟨⟨"c", [], [], []⟩, 1⟩] ∧
    ([⟨⟨"b", [], [], []⟩, (1 : ℝ)⟩, ⟨⟨"c", [], [], []⟩, 1⟩] :
      List ScoredNote).length = 2 := by
  constructor
  · have hba : ¬ (("b" : String) = "a") := by decide
    have hca : ¬ (("c" : String) = "a") := by decide
    have b1 : (("a" : String) == "a") = true := by decide
    have b2 : (("a" : String) == "b") = false := by decide
    have b3 : (("b" : String) == "b") = true := by decide
    have b4 : (("a" : String) == "c") = false := by decide
    have b5 : (("b" : String) == "c") = false := by decide
    have b6 : (("c" : String) == "c") = true := by decide
    norm_num [findSimilar, getEmbedding, search, searchOnCache, refreshCache,
      getAllEmbeddings, computeScores, cos_one_one, sortDescBy, insertDescBy,
      resolveNotes, getNote, tagFilterPass, List.find?, hba, hca, b1, b2, b3,
      b4, b5, b6]
  · rfl

/-- Claim C6 as amended: `findSimilar` on a note with no stored
embedding returns the empty list without error; otherwise it returns at
most `limit + 1` (not `limit`) results, never includes the note itself,
and every returned note scores at least `0.5`. -/
theorem findSimilar_spec_amended (vs : VS) (noteId : String) (limit : Nat) :
    (getEmbedding vs.db noteId = none →
      findSimilar vs noteId limit = (vs, .ok [])) ∧
    (∀ vs' res, findSimilar vs noteId limit = (vs', .ok res) →
      res.length ≤ limit + 1 ∧
      ∀ n ∈ res, n.note.id ≠ noteId ∧ (1/2 : ℝ) ≤ n.score) := by
  constructor
  · intro h
    simp [findSimilar, h]
  · intro vs' res h
    cases hge : getEmbedding vs.db noteId with
    | none =>
      rw [findSimilar, hge] at h
      cases h
      simp
    | some emb =>
      rw [findSimilar, hge] at h
      obtain ⟨hlen, hmem⟩ := search_ok_bounds h
      refine ⟨hlen, fun n hn => ?_⟩
      obtain ⟨hth, hex⟩ := hmem n hn
      exact ⟨by simpa using hex, hth⟩

/-- Witness for C6 (amended): on an empty store the missing-embedding
clause yields the empty list, and the returned-list clause holds for
that call. -/
theorem findSimilar_spec_amended_witness :
    findSimilar ⟨⟨[], []⟩, none, false⟩ "x" 5 = (⟨⟨[], []⟩, none, false⟩, .ok []) ∧
    (([] : List ScoredNote).length ≤ 5 + 1 ∧
      ∀ n ∈ ([] : List ScoredNote), n.note.id ≠ "x" ∧ (1/2 : ℝ) ≤ n.score) := by
  have h0 : findSimilar ⟨⟨[], []⟩, none, false⟩ "x" 5
      = (⟨⟨[], []⟩, none, false⟩, .ok []) :=
    (findSimilar_spec_amended ⟨⟨[], []⟩, none, false⟩ "x" 5).1 rfl
  exact ⟨h0, (findSimilar_spec_amended ⟨⟨[], []⟩, none, false⟩ "x" 5).2 _ _ h0⟩

lemma resolveNotes_mem_iff (db : DB) (tf : List Str) (l : List (String × ℝ))
    (n : ScoredNote) : n ∈ resolveNotes db tf l ↔
      ∃ p ∈ l, getNote db p.1 = some n.note ∧ n.score = p.2 ∧
        (tf ≠ [] → tagFilterPass tf n.note = true) := by
  induction l with
  | nil => simp [resolveNotes]
  | cons p rest ih =>
    obtain ⟨noteId, score⟩ := p
    cases hg : getNote db noteId with
    | none =>
      simp only [resolveNotes, hg]
      rw [ih]
      constructor
      · rintro ⟨p, hp, hrest⟩
        exact ⟨p, List.mem_cons_of_mem _ hp, hrest⟩
      · rintro ⟨p, hp, hgp, hrest⟩
        rcases List.mem_cons.mp hp with rfl | hp
        · rw [hg] at hgp; cases hgp
        · exact ⟨p, hp, hgp, hrest⟩
    | some note =>
      by_cases hc : (decide (0 < tf.length) && !tagFilterPass tf note) = true
      · have hc' : 0 < tf.length ∧ tagFilterPass tf note = false := by
          simpa using hc
        obtain ⟨hlen, hpass⟩ := hc'
        simp only [resolveNotes, hg, if_pos hc]
        rw [ih]
        constructor
        · rintro ⟨p, hp, hrest⟩
          exact ⟨p, List.mem_cons_of_mem _ hp, hrest⟩
        · rintro ⟨p, hp, hgp, hs, hfil⟩
          rcases List.mem_cons.mp hp with rfl | hp
          · exfalso
            rw [hg] at hgp
            injection hgp with hnn
            have htf : tf ≠ [] := by
              intro h0
              rw [h0] at hlen
              simp at hlen
            have h1 : tagFilterPass tf note = true := by
              rw [hnn]; exact hfil htf
            rw [h1] at hpass
            cases hpass
          · exact ⟨p, hp, hgp, hs, hfil⟩
      · have hc' : ¬(0 < tf.length ∧ tagFilterPass tf note = false) := by
          intro hcc
          exact hc (by simp [hcc.1, hcc.2])
        simp only [resolveNotes, hg, if_neg hc, List.mem_cons]
        rw [ih]
        constructor
        · rintro (rfl | ⟨p, hp, hrest⟩)
          · refine ⟨(noteId, score), Or.inl rfl, hg, rfl, ?_⟩
            intro htf
            by_contra hps
            have hpass : tagFilterPass tf note = false := by
              revert hps
              cases tagFilterPass tf note <;> simp
            exact hc' ⟨List.length_pos.mpr htf, hpass⟩
          · exact ⟨p, Or.inr hp, hrest⟩
        · rintro ⟨p, hp, hgp, hs, hfil⟩
          rcases hp with rfl | hp
          · left
            rw [hg] at hgp
            injection hgp with hnn
            obtain ⟨nn, ns⟩ := n
            simp only at hnn hs
            rw [← hnn, hs]
          · right
            exact ⟨p, hp, hgp, hs, hfil⟩

lemma tagFilterPass_iff (tf : List Str) (note : Note) :
    tagFilterPass tf note = true ↔
      ∃ t ∈ tf, lowerStr t ∈ note.tags.map lowerStr := by
  simp [tagFilterPass, List.any_eq_true]

lemma search_ok_elim {vs : VS} {q : List ℝ} {opts : SearchOptions} {vs' : VS}
    {res : List ScoredNote} (h : search vs q opts = (vs', .ok res)) :
    ∃ results, computeScores q opts.excludeIds opts.threshold
        (vs'.embeddingCache.getD []) = .ok results ∧
      res = resolveNotes vs'.db opts.tagFilter
        ((sortDescBy (fun p => p.2) results).take opts.limit) := by
  have hV : (search vs q opts).1 = vs' := congrArg Prod.fst h
  have h2 : searchOnCache (search vs q opts).1.db q opts
      ((search vs q opts).1.embeddingCache.getD []) = .ok res :=
    congrArg Prod.snd h
  rw [hV] at h2
  rw [searchOnCache] at h2
  cases hcs : computeScores q opts.excludeIds opts.threshold
      (vs'.embeddingCache.getD []) with
  | error e => rw [hcs] at h2; cases h2
  | ok results =>
    rw [hcs] at h2
    refine ⟨results, rfl, ?_⟩
    injection h2 with h3
    exact h3.symm

/-- Concrete note of the C8 scenario, tagged only
`javascript-frameworks`. -/
def jfNote : Note := ⟨"j", [], [], ["javascript-frameworks".toList]⟩

/-- Concrete store of the C8 scenario. -/
def jfDb : DB := ⟨[jfNote], [("j", ⟨[1]⟩)]⟩

/-- C8 scenario `VectorSearch` state before any cache build. -/
def jfVS : VS := ⟨jfDb, none, false⟩

/-- C8 scenario `VectorSearch` state after the refresh triggered by the
first search. -/
noncomputable def jfVS' : VS := ⟨jfDb, some [("j", ⟨[1]⟩)], true⟩

lemma search_jf_filter :
    search jfVS [1] { tagFilter := ["javascript".toList] } = (jfVS', .ok []) := by
  have hpass : tagFilterPass ["javascript".toList] jfNote = false := by decide
  have bj : (("j" : String) == "j") = true := by decide
  norm_num [search, searchOnCache, computeScores, cos_one_one, sortDescBy,
    insertDescBy, resolveNotes, getNote, List.find?, refreshCache,
    getAllEmbeddings, jfVS, jfVS', jfDb, jfNote, bj]
  exact hpass

lemma search_jf_nofilter :
    search jfVS [1] {} = (jfVS', .ok [⟨jfNote, 1⟩]) := by
  have bj : (("j" : String) == "j") = true := by decide
  norm_num [search, searchOnCache, computeScores, cos_one_one, sortDescBy,
    insertDescBy, resolveNotes, getNote, List.find?, refreshCache,
    getAllEmbeddings, jfVS, jfVS', jfDb, jfNote, bj]

/-- Counterexample to C8 as stated: with a single note tagged only
`javascript-frameworks` and `tagFilter = ["javascript"]`, the note's tag
does contain the filter term as a substring, and the note would be
returned with no filter — yet the filtered search drops it, because the
code tests case-insensitive equality (`Array.includes`), not substring
containment. -/
theorem search_tagFilter_containment_counterexample :
    (search jfVS [1] { tagFilter := ["javascript".toList] }).2 = .ok [] ∧
    (search jfVS [1] {}).2 = .ok [⟨jfNote, 1⟩] ∧
    getNote jfDb "j" = some jfNote ∧
    containsSub (lowerStr "javascript".toList)
      (lowerStr "javascript-frameworks".toList) = true := by
  refine ⟨?_, ?_, by decide, by decide⟩
  · rw [search_jf_filter]
  · rw [search_jf_nofilter]

/-- Claim C8 as amended: during result resolution an id whose note no
longer exists is silently dropped (resolution is total and the search
still returns a result list), and with a non-empty `tagFilter` a
resolved note is kept if and only if some tag of the note is, after
lowercasing both sides, equal — not merely a superstring of — some
filter term (any-match semantics). -/
theorem search_resolution_spec :
    (∀ (db : DB) (tf : List Str) (l : List (String × ℝ)) (n : ScoredNote),
      n ∈ resolveNotes db tf l ↔
        ∃ p ∈ l, getNote db p.1 = some n.note ∧ n.score = p.2 ∧
          (tf ≠ [] → tagFilterPass tf n.note = true)) ∧
    (∀ (tf : List Str) (note : Note),
      tagFilterPass tf note = true ↔
        ∃ t ∈ tf, lowerStr t ∈ note.tags.map lowerStr) ∧
    (∀ (vs : VS) (q : List ℝ) (opts : SearchOptions) (vs' : VS)
        (res : List ScoredNote), search vs q opts = (vs', .ok res) →
      ∀ n ∈ res, getNote vs'.db n.note.id = some n.note ∧
        (opts.tagFilter ≠ [] → ∃ t ∈ opts.tagFilter,
          lowerStr t ∈ n.note.tags.map lowerStr)) := by
  refine ⟨resolveNotes_mem_iff, tagFilterPass_iff, ?_⟩
  intro vs q opts vs' res h n hn
  obtain ⟨results, hcs, hres⟩ := search_ok_elim h
  rw [hres] at hn
  obtain ⟨p, _, hgp, _, hfil⟩ := (resolveNotes_mem_iff _ _ _ _).mp hn
  have hid : n.note.id = p.1 := getNote_id hgp
  refine ⟨by rw [hid]; exact hgp, fun htf => ?_⟩
  exact (tagFilterPass_iff _ _).mp (hfil htf)

/-- Witness for C8 (amended): the resolution and tag-filter clauses
applied at the concrete `javascript-frameworks` scenario. -/
theorem search_resolution_spec_witness :
    getNote jfVS'.db (⟨jfNote, (1 : ℝ)⟩ : ScoredNote).note.id
      = some (⟨jfNote, (1 : ℝ)⟩ : ScoredNote).note ∧
    tagFilterPass ["javascript-frameworks".toList] jfNote = true := by
  constructor
  · exact (search_resolution_spec.2.2 jfVS [1] {} jfVS' [⟨jfNote, 1⟩]
      search_jf_nofilter ⟨jfNote, 1⟩ (by simp)).1
  · exact (search_resolution_spec.2.1 ["javascript-frameworks".toList]
      jfNote).mpr ⟨"javascript-frameworks".toList, by simp, by decide⟩

/-- Options object of `VectorSearch.hybridSearch`, with its JavaScript
default values. -/
structure HybridOptions where
  limit : Nat := 20
  semanticWeight : ℝ := 7/10
  keywordWeight : ℝ := 3/10
  threshold : ℝ := 3/10

/-- Entry of the `scoreMap` built by `hybridSearch`: the note object and
its accumulated combined score. -/
structure HEntry where
  note : Note
  score : ℝ

/-- Model of `Map.prototype.set`: replace in place when the key exists,
append otherwise. -/
def mapSet (k : String) (v : HEntry) :
    List (String × HEntry) → List (String × HEntry)
  | [] => [(k, v)]
  | (k', v') :: t => if k' = k then (k, v) :: t else (k', v') :: mapSet k v t

/-- Semantic pass of `hybridSearch`: at position `i` of the semantic
results, set the map entry to
`note.score * semanticWeight * (1 - (i / total) * 0.1)`. -/
noncomputable def addSemPass (w : ℝ) (total : Nat) :
    Nat → List ScoredNote → List (String × HEntry) → List (String × HEntry)
  | _, [], m => m
  | i, n :: rest, m =>
    addSemPass w total (i + 1) rest
      (mapSet n.note.id ⟨n.note, n.score * w * (1 - ((i : ℝ) / total) * (1/10))⟩ m)

/-- One keyword update of `hybridSearch`: add the rank-based keyword
score onto an existing entry, or start a new entry. -/
def addKeyword (k : String) (note : Note) (kwScore : ℝ) :
    List (String × HEntry) → List (String × HEntry)
  | [] => [(k, ⟨note, kwScore⟩)]
  | (k', e) :: t =>
    if k' = k then (k', ⟨e.note, e.score + kwScore⟩) :: t
    else (k', e) :: addKeyword k note kwScore t

/-- Keyword pass of `hybridSearch`: at position `i` of the keyword
results, contribute `(1 - i / total) * keywordWeight`. -/
noncomputable def addKwPass (w : ℝ) (total : Nat) :
    Nat → List KScoredNote → List (String × HEntry) → List (String × HEntry)
  | _, [], m => m
  | i, k :: rest, m =>
    addKwPass w total (i + 1) rest
      (addKeyword k.note.id k.note ((1 - (i : ℝ) / total) * w) m)

/-- The `scoreMap` of `hybridSearch` after both passes. -/
noncomputable def buildHybridMap (o : HybridOptions) (sems : List ScoredNote)
    (kws : List KScoredNote) : List (String × HEntry) :=
  addKwPass o.keywordWeight kws.length 0 kws
    (addSemPass o.semanticWeight sems.length 0 sems [])

/-- Model of `VectorSearch.hybridSearch`: semantic candidates from
`search` with `2 * limit`, keyword candidates from `keywordSearch` with
`2 * limit`, merged in the score map, sorted descending by combined
score and truncated to `limit`. -/
noncomputable def hybridSearch (vs : VS) (queryEmbedding : List ℝ)
    (keywords : List Str) (o : HybridOptions) :
    VS × Except String (List ScoredNote) :=
  let r := search vs queryEmbedding { limit := o.limit * 2, threshold := o.threshold }
  match r.2 with
  | .error e => (r.1, .error e)
  | .ok semanticResults =>
    let keywordResults := keywordSearch r.1.db keywords (o.limit * 2)
    (r.1, .ok (((sortDescBy (fun p => p.2.score)
        (buildHybridMap o semanticResults keywordResults)).take o.limit).map
      (fun p => ⟨p.2.note, p.2.score⟩)))

/-- Word splitter modelling `str.split(/\s+/).filter(nonempty)`; the
first argument of the scan accumulates the current word reversed. -/
def wordsByAux (p : Char → Bool) : Str → Str → List Str
  | [], acc => if acc.isEmpty then [] else [acc.reverse]
  | c :: t, acc =>
    if p c then
      if acc.isEmpty then wordsByAux p t [] else acc.reverse :: wordsByAux p t []
    else wordsByAux p t (c :: acc)

/-- Whitespace-separated words of a string. -/
def splitWs (s : Str) : List Str := wordsByAux Char.isWhitespace s []

/-- Parsed query of `SearchView.parseSearchQuery`: the dispatch type and
the extracted terms. -/
structure ParsedQuery where
  isTag : Bool
  terms : List Str

/-- Model of `SearchView.parseSearchQuery`: a query matching
`^tag:\s*(.+)$` (case-insensitively) is a tag query whose terms are the
whitespace-separated words after the prefix; anything else is a
keyword/semantic query whose terms are the words longer than one
character. -/
def parseSearchQuery (query : Str) : ParsedQuery :=
  if lowerStr (query.take 4) = "tag:".toList ∧ 1 ≤ (query.drop 4).length then
    ⟨true, splitWs (query.drop 4)⟩
  else
    ⟨false, (splitWs query).filter (fun w => 1 < w.length)⟩

/-- Caller-visible outcome of `SearchView.handleSearch`: the rendered
result list and the optional notice string. -/
structure SearchOutcome where
  results : List ScoredNote
  notice : Option String

/-- Keyword- and tag-search results rendered through the same result
list as semantic results (JavaScript has a single number type). -/
def castKw (l : List KScoredNote) : List ScoredNote :=
  l.map (fun k => ⟨k.note, (k.score : ℝ)⟩)

/-- Model of `SearchView.handleSearch`, with the Embedding Provider's
answer for the query passed in as `embedResult` (`none` models a `null`
vector from an unavailable model). Queries shorter than two characters
return without searching (`none` outcome). The keyword fallback calls
the fallible `keywordSearchJS`; an `Except.error` is the rejection the
caller's `try/catch` turns into an error render. -/
noncomputable def handleSearch (vs : VS) (query : Str)
    (embedResult : Option (List ℝ)) :
    VS × Except String (Option SearchOutcome) :=
  if query.length < 2 then (vs, .ok none)
  else
    let parsed := parseSearchQuery query
    if parsed.isTag then
      (vs, .ok (some ⟨castKw (tagSearch vs.db parsed.terms 20),
        some "Searching tags only"⟩))
    else
      match embedResult with
      | some embedding =>
        let r := hybridSearch vs embedding parsed.terms
          { limit := 20, semanticWeight := 7/10, keywordWeight := 3/10 }
        match r.2 with
        | .error e => (r.1, .error e)
        | .ok results => (r.1, .ok (some ⟨results, none⟩))
      | none =>
        match keywordSearchJS vs.db parsed.terms 20 with
        | .error e => (vs, .error e)
        | .ok results =>
          (vs, .ok (some ⟨castKw results,
            some "Using keyword search (AI model loading...)"⟩))

/-- Counterexample to claim C9 as stated: with the model unavailable,
the non-tag query `c++` (length `3`, so past the guard) reaches the
keyword fallback, the unescaped `new RegExp` on the term `c++` throws,
and the caller sees an error — not the keyword output plus the
keyword-only notice. -/
theorem handleSearch_regex_counterexample :
    2 ≤ ("c++".toList : Str).length ∧
    (parseSearchQuery "c++".toList).isTag = false ∧
    handleSearch jfVS "c++".toList none
      = (jfVS, Except.error "Invalid regular expression") := by
  refine ⟨by decide, by decide, ?_⟩
  have hterms : (parseSearchQuery "c++".toList).terms = ["c++".toList] := by
    decide
  have htag : (parseSearchQuery "c++".toList).isTag = false := by decide
  have herr : keywordSearchJS jfVS.db ["c++".toList] 20
      = Except.error "Invalid regular expression" :=
    keywordSearchJS_invalid _ _ _ ⟨lowerStr "c++".toList, by simp, by decide⟩
      (by decide)
  rw [handleSearch, if_neg (by decide)]
  simp only [hterms, htag, Bool.false_eq_true, if_false, herr]

/-- Claim C9 as amended: when the Provider yields no vector on a
non-tag query, the caller-visible result is the `keywordSearch` output
augmented with the keyword-only notice — with no exception — provided
every parsed term is free of regex metacharacters; a term that is an
invalid pattern instead makes the fallback path reject, and the caller
sees that error. -/
theorem handleSearch_fallback_amended (vs : VS) (query : Str)
    (hq : 2 ≤ query.length) (ht : (parseSearchQuery query).isTag = false) :
    ((∀ t ∈ (parseSearchQuery query).terms.map lowerStr, plainTerm t = true) →
      handleSearch vs query none =
        (vs, Except.ok (some ⟨castKw
          (keywordSearch vs.db (parseSearchQuery query).terms 20),
          some "Using keyword search (AI model loading...)"⟩))) ∧
    (∀ e, keywordSearchJS vs.db (parseSearchQuery query).terms 20
        = Except.error e →
      handleSearch vs query none = (vs, Except.error e)) := by
  constructor
  · intro hpl
    rw [handleSearch, if_neg (by omega)]
    simp only [ht, Bool.false_eq_true, if_false,
      keywordSearchJS_plain vs.db (parseSearchQuery query).terms 20 hpl]
  · intro e he
    rw [handleSearch, if_neg (by omega)]
    simp only [ht, Bool.false_eq_true, if_false, he]

/-- Witness for amended C9: the concrete two-word query `pasta sauce`
(both terms free of metacharacters) with an unavailable model falls
back to a keyword-only outcome without error. -/
theorem handleSearch_fallback_amended_witness :
    handleSearch ⟨⟨[], []⟩, none, false⟩ "pasta sauce".toList none =
      (⟨⟨[], []⟩, none, false⟩,
        Except.ok (some ⟨castKw (keywordSearch ⟨[], []⟩
            (parseSearchQuery "pasta sauce".toList).terms 20),
          some "Using keyword search (AI model loading...)"⟩)) :=
  (handleSearch_fallback_amended ⟨⟨[], []⟩, none, false⟩ "pasta sauce".toList
    (by decide) (by decide)).1 (by decide)

lemma dotL_cons (x y : ℝ) (t u : List ℝ) :
    dotL (x :: t) (y :: u) = x * y + dotL t u := by
  simp [dotL]

lemma normSqL_cons (x : ℝ) (t : List ℝ) :
    normSqL (x :: t) = x * x + normSqL t := by
  simp [normSqL]

lemma list_cauchy_schwarz : ∀ (a b : List ℝ),
    (dotL a b) ^ 2 ≤ normSqL a * normSqL b := by
  intro a
  induction a with
  | nil =>
    intro b
    simp [dotL, normSqL]
  | cons x t ih =>
    intro b
    cases b with
    | nil =>
      have h1 : (0 : ℝ) ≤ normSqL (x :: t) := normSqL_nonneg (x :: t)
      have h2 : dotL (x :: t) [] = 0 := by simp [dotL]
      have h3 : normSqL ([] : List ℝ) = 0 := by simp [normSqL]
      rw [h2, h3]
      simp
    | cons y u =>
      have hA : 0 ≤ normSqL t := normSqL_nonneg t
      have hB : 0 ≤ normSqL u := normSqL_nonneg u
      have h := ih u
      rw [dotL_cons, normSqL_cons, normSqL_cons]
      rcases eq_or_lt_of_le hA with hA0 | hApos
      · have hd : dotL t u = 0 := by
          nlinarith [sq_nonneg (dotL t u)]
        rw [hd]
        nlinarith [mul_nonneg (mul_self_nonneg x) hB]
      · nlinarith [sq_nonneg (y * normSqL t - x * dotL t u),
          mul_nonneg (sub_nonneg.2 h)
            (add_nonneg (mul_self_nonneg x) hA)]

lemma cosineSimilarity_le_one {q v : List ℝ} {s : ℝ}
    (h : cosineSimilarity q v = .ok s) : s ≤ 1 := by
  by_cases hlen : q.length = v.length
  · simp only [cosineSimilarity,
      if_neg (show ¬(q.length ≠ v.length) by simpa using hlen)] at h
    by_cases hd : Real.sqrt (normSqL q) * Real.sqrt (normSqL v) = 0
    · rw [if_pos hd] at h
      injection h with hs
      rw [← hs]
      norm_num
    · rw [if_neg hd] at h
      injection h with hs
      have hpos : 0 < Real.sqrt (normSqL q) * Real.sqrt (normSqL v) := by
        rcases lt_or_eq_of_le (mul_nonneg (Real.sqrt_nonneg (normSqL q))
          (Real.sqrt_nonneg (normSqL v))) with h1 | h1
        · exact h1
        · exact absurd h1.symm hd
      rw [← hs, div_le_one hpos]
      calc dotL q v ≤ |dotL q v| := le_abs_self _
        _ = Real.sqrt ((dotL q v) ^ 2) := (Real.sqrt_sq_eq_abs _).symm
        _ ≤ Real.sqrt (normSqL q * normSqL v) :=
            Real.sqrt_le_sqrt (list_cauchy_schwarz q v)
        _ = Real.sqrt (normSqL q) * Real.sqrt (normSqL v) :=
            Real.sqrt_mul (normSqL_nonneg q) _
  · simp [cosineSimilarity, hlen] at h

lemma computeScores_ok_le_one {q : List ℝ} {ex : List String} {th : ℝ}
    {cache : List (String × EmbRec)} {res : List (String × ℝ)}
    (h : computeScores q ex th cache = .ok res) :
    ∀ p ∈ res, p.2 ≤ 1 := by
  induction cache generalizing res with
  | nil =>
    simp only [computeScores] at h
    cases h
    simp
  | cons entry rest ih =>
    obtain ⟨noteId, emb⟩ := entry
    by_cases hex : noteId ∈ ex
    · simp only [computeScores, if_pos hex] at h
      exact ih h
    · simp only [computeScores, if_neg hex] at h
      cases hcos : cosineSimilarity q emb.vector with
      | error e => simp [hcos] at h
      | ok score =>
        cases hrec : computeScores q ex th rest with
        | error e => simp [hcos, hrec] at h
        | ok results =>
          simp only [hcos, hrec] at h
          by_cases hth : th ≤ score
          · rw [if_pos hth] at h
            cases h
            intro p hp
            rcases List.mem_cons.mp hp with rfl | hp
            · exact cosineSimilarity_le_one hcos
            · exact ih hrec p hp
          · rw [if_neg hth] at h
            cases h
            exact ih hrec

lemma search_ok_score_le_one {vs : VS} {q : List ℝ} {opts : SearchOptions}
    {vs' : VS} {res : List ScoredNote}
    (h : search vs q opts = (vs', .ok res)) : ∀ n ∈ res, n.score ≤ 1 := by
  obtain ⟨results, hcs, hres⟩ := search_ok_elim h
  intro n hn
  rw [hres] at hn
  obtain ⟨p, hp, _, hscore⟩ := mem_resolveNotes hn
  have hp' : p ∈ results :=
    (mem_sortDescBy (fun p : String × ℝ => p.2) results p).mp
      (List.mem_of_mem_take hp)
  rw [hscore]
  exact computeScores_ok_le_one hcs p hp'

/-- Well-formedness of the Record Store: the keyed object stores have no
duplicate keys. -/
def DBWF (db : DB) : Prop :=
  (db.notes.map (fun n => n.id)).Nodup ∧
  (db.embeddings.map (fun p => p.1)).Nodup

/-- Well-formedness of a `VectorSearch` state: the store is well formed
and any already-built cache has no duplicate keys. -/
def VSWF (vs : VS) : Prop :=
  DBWF vs.db ∧ ∀ c, vs.embeddingCache = some c → (c.map (fun p => p.1)).Nodup

lemma search_state (vs : VS) (q : List ℝ) (opts : SearchOptions) :
    (search vs q opts).1 =
      if !vs.cacheValid || vs.embeddingCache.isNone then refreshCache vs
      else vs := rfl

lemma search_db (vs : VS) (q : List ℝ) (opts : SearchOptions) :
    (search vs q opts).1.db = vs.db := by
  rw [search_state]
  by_cases h : (!vs.cacheValid || vs.embeddingCache.isNone) = true
  · rw [if_pos h]; rfl
  · rw [if_neg h]

lemma search_cache_keys_nodup {vs : VS} (hwf : VSWF vs) (q : List ℝ)
    (opts : SearchOptions) :
    (((search vs q opts).1.embeddingCache.getD []).map (fun p => p.1)).Nodup := by
  rw [search_state]
  by_cases h : (!vs.cacheValid || vs.embeddingCache.isNone) = true
  · rw [if_pos h]
    exact hwf.1.2
  · rw [if_neg h]
    cases hc : vs.embeddingCache with
    | none => simp
    | some c => simpa using hwf.2 c hc

lemma computeScores_keys_sublist {q : List ℝ} {ex : List String} {th : ℝ}
    {cache : List (String × EmbRec)} {res : List (String × ℝ)}
    (h : computeScores q ex th cache = .ok res) :
    (res.map (fun p => p.1)).Sublist (cache.map (fun p => p.1)) := by
  induction cache generalizing res with
  | nil =>
    simp only [computeScores] at h
    cases h
    simp
  | cons entry rest ih =>
    obtain ⟨noteId, emb⟩ := entry
    by_cases hex : noteId ∈ ex
    · simp only [computeScores, if_pos hex] at h
      exact (ih h).trans (List.sublist_cons_self _ _)
    · simp only [computeScores, if_neg hex] at h
      cases hcos : cosineSimilarity q emb.vector with
      | error e => simp [hcos] at h
      | ok score =>
        cases hrec : computeScores q ex th rest with
        | error e => simp [hcos, hrec] at h
        | ok results =>
          simp only [hcos, hrec] at h
          by_cases hth : th ≤ score
          · rw [if_pos hth] at h
            cases h
            simpa using (ih hrec).cons₂ noteId
          · rw [if_neg hth] at h
            cases h
            exact (ih hrec).trans (List.sublist_cons_self _ _)

lemma resolveNotes_ids_sublist (db : DB) (tf : List Str)
    (l : List (String × ℝ)) :
    ((resolveNotes db tf l).map (fun n => n.note.id)).Sublist
      (l.map (fun p => p.1)) := by
  induction l with
  | nil => simp [resolveNotes]
  | cons p rest ih =>
    obtain ⟨noteId, score⟩ := p
    cases hg : getNote db noteId with
    | none =>
      simp only [resolveNotes, hg]
      exact ih.trans (List.sublist_cons_self _ _)
    | some note =>
      by_cases hc : (decide (0 < tf.length) && !tagFilterPass tf note) = true
      · simp only [resolveNotes, hg, if_pos hc]
        exact ih.trans (List.sublist_cons_self _ _)
      · simp only [resolveNotes, hg, if_neg hc, List.map_cons]
        rw [getNote_id hg]
        exact ih.cons₂ noteId

lemma search_ids_nodup {vs : VS} {q : List ℝ} {opts : SearchOptions}
    {vs' : VS} {res : List ScoredNote} (hwf : VSWF vs)
    (h : search vs q opts = (vs', .ok res)) :
    (res.map (fun n => n.note.id)).Nodup := by
  obtain ⟨results, hcs, hres⟩ := search_ok_elim h
  have hkeys : ((vs'.embeddingCache.getD []).map (fun p => p.1)).Nodup := by
    have := search_cache_keys_nodup hwf q opts
    rw [congrArg Prod.fst h] at this
    exact this
  have h1 : (results.map (fun p => p.1)).Nodup :=
    (computeScores_keys_sublist hcs).nodup hkeys
  have h2 : ((sortDescBy (fun p : String × ℝ => p.2) results).map
      (fun p => p.1)).Nodup :=
    (((sortDescBy_perm (fun p : String × ℝ => p.2) results).map _).nodup_iff).mpr h1
  have h3 : (((sortDescBy (fun p : String × ℝ => p.2) results).take
      opts.limit).map (fun p => p.1)).Nodup :=
    ((List.take_sublist _ _).map _).nodup h2
  rw [hres]
  exact (resolveNotes_ids_sublist _ _ _).nodup h3

lemma keywordSearch_ids_nodup {db : DB} (hwf : DBWF db) (keywords : List Str)
    (limit : Nat) :
    ((keywordSearch db keywords limit).map (fun x => x.note.id)).Nodup := by
  by_cases hkw : keywords.isEmpty
  · simp [keywordSearch, hkw]
  · simp only [keywordSearch, hkw, Bool.false_eq_true, if_false]
    rw [List.map_map]
    have h0 : ((getAllNotes db 1000).map (fun n => n.id)).Nodup :=
      ((List.take_sublist _ _).map _).nodup hwf.1
    have h1 : ((((getAllNotes db 1000).map
        (fun note => (note, kwNoteScore (keywords.map lowerStr) note))).filter
          (fun p => decide (0 < p.2))).map (fun p => p.1.id)).Nodup := by
      refine ((List.filter_sublist _).map _).nodup ?_
      rw [List.map_map]
      exact h0
    have h2 := (((sortDescBy_perm (fun p : Note × ℚ => p.2) _).map
      (fun p : Note × ℚ => p.1.id)).nodup_iff).mpr h1
    exact ((List.take_sublist _ _).map _).nodup h2

lemma mapSet_values (k : String) (v : HEntry) (m : List (String × HEntry)) :
    ∀ p ∈ mapSet k v m, p.2 = v ∨ p.2 ∈ m.map (fun q => q.2) := by
  induction m with
  | nil =>
    intro p hp
    simp only [mapSet, List.mem_singleton] at hp
    subst hp
    exact Or.inl rfl
  | cons q t ih =>
    obtain ⟨k', v'⟩ := q
    intro p hp
    by_cases hk : k' = k
    · rw [mapSet, if_pos hk] at hp
      rcases List.mem_cons.mp hp with rfl | hp
      · exact Or.inl rfl
      · exact Or.inr (List.mem_map.mpr ⟨p, List.mem_cons_of_mem _ hp, rfl⟩)
    · rw [mapSet, if_neg hk] at hp
      rcases List.mem_cons.mp hp with rfl | hp
      · exact Or.inr (by simp)
      · rcases ih p hp with h | h
        · exact Or.inl h
        · simp only [List.mem_map] at h
          obtain ⟨q, hq, hqe⟩ := h
          exact Or.inr (List.mem_map.mpr ⟨q, List.mem_cons_of_mem _ hq, hqe⟩)

lemma addKeyword_cases (k : String) (note : Note) (c : ℝ)
    (m : List (String × HEntry)) :
    ∀ p ∈ addKeyword k note c m,
      p ∈ m ∨ (∃ e, (k, e) ∈ m ∧ p = (k, ⟨e.note, e.score + c⟩)) ∨
        p = (k, ⟨note, c⟩) := by
  induction m with
  | nil =>
    intro p hp
    simp only [addKeyword, List.mem_singleton] at hp
    exact Or.inr (Or.inr hp)
  | cons q t ih =>
    obtain ⟨k', e'⟩ := q
    intro p hp
    by_cases hk : k' = k
    · rw [addKeyword, if_pos hk] at hp
      rcases List.mem_cons.mp hp with rfl | hp
      · subst hk
        exact Or.inr (Or.inl ⟨e', List.mem_cons_self _ _, rfl⟩)
      · exact Or.inl (List.mem_cons_of_mem _ hp)
    · rw [addKeyword, if_neg hk] at hp
      rcases List.mem_cons.mp hp with rfl | hp
      · exact Or.inl (List.mem_cons_self _ _)
      · rcases ih p hp with h | ⟨e, he, hpe⟩ | h
        · exact Or.inl (List.mem_cons_of_mem _ h)
        · exact Or.inr (Or.inl ⟨e, List.mem_cons_of_mem _ he, hpe⟩)
        · exact Or.inr (Or.inr h)

lemma addSemPass_values (w : ℝ) (total : Nat) :
    ∀ (sems : List ScoredNote) (i : Nat) (m : List (String × HEntry)),
    ∀ p ∈ addSemPass w total i sems m,
      p.2 ∈ m.map (fun q => q.2) ∨
      ∃ j n, sems.get? j = some n ∧
        p.2 = ⟨n.note, n.score * w * (1 - (((i + j : Nat) : ℝ) / total) * (1/10))⟩ := by
  intro sems
  induction sems with
  | nil =>
    intro i m p hp
    exact Or.inl (List.mem_map.mpr ⟨p, hp, rfl⟩)
  | cons n0 rest ih =>
    intro i m p hp
    rw [addSemPass] at hp
    rcases ih (i + 1) _ p hp with hin | ⟨j, n, hget, hval⟩
    · rcases mapSet_values _ _ _ _ (List.mem_map.mp hin).choose_spec.1 with hv | hv
      · obtain ⟨q, hq, hqe⟩ := List.mem_map.mp hin
        rcases mapSet_values _ _ _ q hq with hv' | hv'
        · refine Or.inr ⟨0, n0, rfl, ?_⟩
          rw [← hqe, hv']
          norm_num
        · exact Or.inl (hqe ▸ hv')
      · obtain ⟨q, hq, hqe⟩ := List.mem_map.mp hin
        rcases mapSet_values _ _ _ q hq with hv' | hv'
        · refine Or.inr ⟨0, n0, rfl, ?_⟩
          rw [← hqe, hv']
          norm_num
        · exact Or.inl (hqe ▸ hv')
    · refine Or.inr ⟨j + 1, n, by simpa using hget, ?_⟩
      rw [hval]
      have : i + 1 + j = i + (j + 1) := by omega
      rw [this]

lemma addKwPass_bound (sw kw : ℝ) (hsw : 0 ≤ sw) (hkw : 0 < kw) (total : Nat) :
    ∀ (kws : List KScoredNote) (i : Nat) (m : List (String × HEntry)),
    (kws.map (fun x => x.note.id)).Nodup →
    i + kws.length ≤ total →
    (∀ p ∈ m, (0 < p.2.score ∧ p.2.score ≤ sw + kw) ∧
      (p.1 ∈ kws.map (fun x => x.note.id) → p.2.score ≤ sw)) →
    ∀ p ∈ addKwPass kw total i kws m, 0 < p.2.score ∧ p.2.score ≤ sw + kw := by
  intro kws
  induction kws with
  | nil =>
    intro i m _ _ hm p hp
    exact (hm p hp).1
  | cons k rest ih =>
    intro i m hnd htot hm p hp
    have hi : i < total := by
      simp only [List.length_cons] at htot
      omega
    have htp : (0 : ℝ) < total := by
      exact_mod_cast (Nat.zero_le i).trans_lt hi
    have hfrac0 : (0 : ℝ) ≤ (i : ℝ) / total :=
      div_nonneg (Nat.cast_nonneg i) (le_of_lt htp)
    have hfrac1 : (i : ℝ) / total < 1 := by
      rw [div_lt_one htp]
      exact_mod_cast hi
    have hc1 : 0 < (1 - (i : ℝ) / total) * kw :=
      mul_pos (by linarith) hkw
    have hc2 : (1 - (i : ℝ) / total) * kw ≤ kw := by
      nlinarith
    rw [List.map_cons, List.nodup_cons] at hnd
    obtain ⟨hknotin, hndrest⟩ := hnd
    rw [addKwPass] at hp
    refine ih (i + 1) _ hndrest
      (by simp only [List.length_cons] at htot; omega) ?_ p hp
    intro p' hp'
    rcases addKeyword_cases _ _ _ _ p' hp' with hin | ⟨e, he, rfl⟩ | rfl
    · refine ⟨(hm p' hin).1, fun hmem => ?_⟩
      exact (hm p' hin).2 (by simp [hmem])
    · have hme := hm (k.note.id, e) he
      have hesw : e.score ≤ sw := hme.2 (by simp)
      refine ⟨⟨by nlinarith [hme.1.1], by nlinarith⟩, fun hmem => ?_⟩
      exact absurd hmem hknotin
    · refine ⟨⟨hc1, by nlinarith⟩, fun hmem => ?_⟩
      exact absurd hmem hknotin

lemma hybrid_ok_elim {vs : VS} {q : List ℝ} {keywords : List Str}
    {o : HybridOptions} {vs' : VS} {res : List ScoredNote}
    (h : hybridSearch vs q keywords o = (vs', .ok res)) :
    ∃ sems, search vs q { limit := o.limit * 2, threshold := o.threshold }
        = (vs', .ok sems) ∧
      res = ((sortDescBy (fun p => p.2.score) (buildHybridMap o sems
        (keywordSearch vs'.db keywords (o.limit * 2)))).take o.limit).map
        (fun p => ⟨p.2.note, p.2.score⟩) := by
  rcases hS : search vs q { limit := o.limit * 2, threshold := o.threshold }
    with ⟨vs1, r2⟩
  cases r2 with
  | error e =>
    rw [hybridSearch] at h
    rw [hS] at h
    simp at h
  | ok sems =>
    rw [hybridSearch] at h
    rw [hS] at h
    simp only [Prod.mk.injEq, Except.ok.injEq] at h
    obtain ⟨hv, hr⟩ := h
    subst hv
    exact ⟨sems, rfl, hr.symm⟩

/-- Claim C10 (implicit): with a positive threshold and positive
weights — the defaults are `0.3`, `0.7`, `0.3` — every score in a
`hybridSearch` result list is strictly positive and at most
`semanticWeight + keywordWeight` (`1.0` at the defaults), so it is
displayable as a percentage in `(0, 100]`. -/
theorem hybridSearch_score_bounds (vs : VS) (q : List ℝ) (keywords : List Str)
    (o : HybridOptions) (vs' : VS) (res : List ScoredNote)
    (hwf : VSWF vs) (hth : 0 < o.threshold) (hsw : 0 < o.semanticWeight)
    (hkw : 0 < o.keywordWeight)
    (h : hybridSearch vs q keywords o = (vs', .ok res)) :
    ∀ n ∈ res, 0 < n.score ∧ n.score ≤ o.semanticWeight + o.keywordWeight := by
  obtain ⟨sems, hS, hres⟩ := hybrid_ok_elim h
  have hdb : vs'.db = vs.db := by
    have h1 : (search vs q { limit := o.limit * 2, threshold := o.threshold }).1 = vs' := by
      rw [hS]
    rw [← h1]
    exact search_db vs q _
  have hsemth := search_ok_bounds hS
  have hsemle := search_ok_score_le_one hS
  have hndkw : ((keywordSearch vs'.db keywords (o.limit * 2)).map
      (fun x => x.note.id)).Nodup := by
    rw [hdb]
    exact keywordSearch_ids_nodup hwf.1 keywords (o.limit * 2)
  have hm : ∀ p ∈ addSemPass o.semanticWeight sems.length 0 sems [],
      (0 < p.2.score ∧ p.2.score ≤ o.semanticWeight + o.keywordWeight) ∧
      (p.1 ∈ (keywordSearch vs'.db keywords (o.limit * 2)).map
          (fun x => x.note.id) → p.2.score ≤ o.semanticWeight) := by
    intro p hp
    rcases addSemPass_values o.semanticWeight sems.length sems 0 [] p hp with
      hin | ⟨j, n, hget, hval⟩
    · simp at hin
    · have hjlen : j < sems.length := by
        rcases List.get?_eq_some.mp hget with ⟨hj, _⟩
        exact hj
      have hmem : n ∈ sems := List.get?_mem hget
      have hn1 : o.threshold ≤ n.score := (hsemth.2 n hmem).1
      have hn2 : n.score ≤ 1 := hsemle n hmem
      have hlp : (0 : ℝ) < sems.length := by
        exact_mod_cast (Nat.zero_le j).trans_lt hjlen
      have hfr0 : (0 : ℝ) ≤ (j : ℝ) / sems.length :=
        div_nonneg (Nat.cast_nonneg j) (le_of_lt hlp)
      have hfr1 : (j : ℝ) / sems.length ≤ 1 := by
        rw [div_le_one hlp]
        exact_mod_cast le_of_lt hjlen
      have hboost0 : 0 < 1 - ((((0 : Nat) + j : Nat) : ℝ) / sems.length) * (1/10) := by
        simp only [Nat.zero_add]
        nlinarith
      have hboost1 : 1 - ((((0 : Nat) + j : Nat) : ℝ) / sems.length) * (1/10) ≤ 1 := by
        simp only [Nat.zero_add]
        nlinarith
      have hscore : p.2.score = n.score * o.semanticWeight *
          (1 - ((((0 : Nat) + j : Nat) : ℝ) / sems.length) * (1/10)) := by
        rw [hval]
      have hspos : 0 < p.2.score := by
        rw [hscore]
        exact mul_pos (mul_pos (lt_of_lt_of_le hth hn1) hsw) hboost0
      have hsle : p.2.score ≤ o.semanticWeight := by
        rw [hscore]
        have hns0 : 0 ≤ n.score := (lt_of_lt_of_le hth hn1).le
        calc n.score * o.semanticWeight *
              (1 - ((((0 : Nat) + j : Nat) : ℝ) / sems.length) * (1/10))
            ≤ n.score * o.semanticWeight * 1 :=
              mul_le_mul_of_nonneg_left hboost1 (mul_nonneg hns0 hsw.le)
          _ = n.score * o.semanticWeight := mul_one _
          _ ≤ 1 * o.semanticWeight :=
              mul_le_mul_of_nonneg_right hn2 hsw.le
          _ = o.semanticWeight := one_mul _
      exact ⟨⟨hspos, le_trans hsle (by linarith)⟩, fun _ => hsle⟩
  intro n hn
  rw [hres] at hn
  obtain ⟨p, hp, rfl⟩ := List.mem_map.mp hn
  have hpM : p ∈ buildHybridMap o sems
      (keywordSearch vs'.db keywords (o.limit * 2)) :=
    (mem_sortDescBy _ _ _).mp (List.mem_of_mem_take hp)
  exact addKwPass_bound o.semanticWeight o.keywordWeight hsw.le hkw
    (keywordSearch vs'.db keywords (o.limit * 2)).length
    (keywordSearch vs'.db keywords (o.limit * 2)) 0 _ hndkw (by simp) hm p hpM

lemma search_jf_40 :
    search jfVS [1] { limit := 40, threshold := 3/10 } =
      (jfVS', .ok [⟨jfNote, 1⟩]) := by
  have bj : (("j" : String) == "j") = true := by decide
  norm_num [search, searchOnCache, computeScores, cos_one_one, sortDescBy,
    insertDescBy, resolveNotes, getNote, List.find?, refreshCache,
    getAllEmbeddings, jfVS, jfVS', jfDb, jfNote, bj]

lemma hybrid_jf :
    hybridSearch jfVS [1] [] {} = (jfVS', .ok [⟨jfNote, 7/10⟩]) := by
  norm_num [hybridSearch, search_jf_40, keywordSearch, buildHybridMap,
    addSemPass, addKwPass, mapSet, sortDescBy, insertDescBy, jfVS', jfNote]

/-- Witness for C10: a concrete `hybridSearch` whose single result has
score `0.7`, strictly positive and at most `0.7 + 0.3`. -/
theorem hybridSearch_score_bounds_witness :
    0 < (⟨jfNote, 7/10⟩ : ScoredNote).score ∧
    (⟨jfNote, 7/10⟩ : ScoredNote).score ≤
      ({} : HybridOptions).semanticWeight + ({} : HybridOptions).keywordWeight := by
  have hwf : VSWF jfVS := by
    refine ⟨⟨by decide, by decide⟩, fun c hc => ?_⟩
    cases hc
  exact hybridSearch_score_bounds jfVS [1] [] {} jfVS' [⟨jfNote, 7/10⟩] hwf
    (by norm_num) (by norm_num) (by norm_num) hybrid_jf
    ⟨jfNote, 7/10⟩ (List.mem_singleton.mpr rfl)

lemma lookup_mapSet_self (k : String) (v : HEntry)
    (m : List (String × HEntry)) : List.lookup k (mapSet k v m) = some v := by
  induction m with
  | nil => simp [mapSet, List.lookup]
  | cons q t ih =>
    obtain ⟨k', v'⟩ := q
    by_cases hk : k' = k
    · rw [mapSet, if_pos hk]
      simp [List.lookup]
    · rw [mapSet, if_neg hk]
      rw [List.lookup]
      have : (k == k') = false := beq_eq_false_iff_ne.mpr (Ne.symm hk)
      rw [this]
      exact ih

lemma lookup_mapSet_ne {k' k : String} (hne : k' ≠ k) (v : HEntry)
    (m : List (String × HEntry)) :
    List.lookup k' (mapSet k v m) = List.lookup k' m := by
  induction m with
  | nil =>
    simp only [mapSet, List.lookup]
    rw [beq_eq_false_iff_ne.mpr hne]
  | cons q t ih =>
    obtain ⟨k'', v''⟩ := q
    by_cases hk : k'' = k
    · rw [mapSet, if_pos hk]
      rw [List.lookup, List.lookup, beq_eq_false_iff_ne.mpr hne, hk,
        beq_eq_false_iff_ne.mpr hne]
    · rw [mapSet, if_neg hk]
      rw [List.lookup, List.lookup]
      cases hbeq : k' == k''
      · exact ih
      · rfl

lemma lookup_addKeyword_some {k : String} {e : HEntry} (note : Note) (c : ℝ)
    {m : List (String × HEntry)} (h : List.lookup k m = some e) :
    List.lookup k (addKeyword k note c m) = some ⟨e.note, e.score + c⟩ := by
  induction m with
  | nil => simp [List.lookup] at h
  | cons q t ih =>
    obtain ⟨k', e'⟩ := q
    by_cases hk : k' = k
    · rw [addKeyword, if_pos hk]
      subst hk
      rw [List.lookup, beq_self_eq_true] at h ⊢
      simp only [Option.some.injEq] at h
      subst h
      rfl
    · rw [addKeyword, if_neg hk]
      rw [List.lookup, beq_eq_false_iff_ne.mpr (Ne.symm hk)] at h ⊢
      exact ih h

lemma lookup_addKeyword_ne {k' k : String} (hne : k' ≠ k) (note : Note)
    (c : ℝ) (m : List (String × HEntry)) :
    List.lookup k' (addKeyword k note c m) = List.lookup k' m := by
  induction m with
  | nil =>
    simp only [addKeyword, List.lookup]
    rw [beq_eq_false_iff_ne.mpr hne]
  | cons q t ih =>
    obtain ⟨k'', e''⟩ := q
    by_cases hk : k'' = k
    · rw [addKeyword, if_pos hk]
      rw [List.lookup, List.lookup,
        beq_eq_false_iff_ne.mpr (fun h => hne (h.trans hk))]
    · rw [addKeyword, if_neg hk]
      rw [List.lookup, List.lookup]
      cases hbeq : k' == k''
      · exact ih
      · rfl

lemma addSemPass_lookup_notmem (w : ℝ) (total : Nat) {id : String} :
    ∀ (sems : List ScoredNote) (i : Nat) (m : List (String × HEntry)),
    id ∉ sems.map (fun x => x.note.id) →
    List.lookup id (addSemPass w total i sems m) = List.lookup id m := by
  intro sems
  induction sems with
  | nil => intro i m _; rfl
  | cons n0 rest ih =>
    intro i m hnm
    simp only [List.map_cons, List.mem_cons, not_or] at hnm
    rw [addSemPass, ih (i + 1) _ hnm.2, lookup_mapSet_ne hnm.1]

lemma addSemPass_lookup (w : ℝ) (total : Nat) :
    ∀ (sems : List ScoredNote) (i j : Nat) (n : ScoredNote)
      (m : List (String × HEntry)),
    (sems.map (fun x => x.note.id)).Nodup →
    sems.get? j = some n →
    List.lookup n.note.id (addSemPass w total i sems m) =
      some ⟨n.note, n.score * w * (1 - (((i + j : Nat) : ℝ) / total) * (1/10))⟩ := by
  intro sems
  induction sems with
  | nil => intro i j n m _ hget; simp at hget
  | cons n0 rest ih =>
    intro i j n m hnd hget
    rw [List.map_cons, List.nodup_cons] at hnd
    cases j with
    | zero =>
      simp only [List.get?] at hget
      injection hget with hn
      subst hn
      rw [addSemPass, addSemPass_lookup_notmem w total rest (i + 1) _ hnd.1,
        lookup_mapSet_self]
      norm_num
    | succ j' =>
      simp only [List.get?] at hget
      have hne : n.note.id ≠ n0.note.id := by
        intro heq
        exact hnd.1 (heq ▸ List.mem_map.mpr ⟨n, List.get?_mem hget, rfl⟩)
      rw [addSemPass]
      have h2 := ih (i + 1) j' n (mapSet n0.note.id
        ⟨n0.note, n0.score * w * (1 - ((i : ℝ) / total) * (1/10))⟩ m) hnd.2 hget
      rw [show i + 1 + j' = i + (j' + 1) from by omega] at h2
      exact h2

lemma addKwPass_lookup_notmem (w : ℝ) (total : Nat) {id : String} :
    ∀ (kws : List KScoredNote) (i : Nat) (m : List (String × HEntry)),
    id ∉ kws.map (fun x => x.note.id) →
    List.lookup id (addKwPass w total i kws m) = List.lookup id m := by
  intro kws
  induction kws with
  | nil => intro i m _; rfl
  | cons k0 rest ih =>
    intro i m hnm
    simp only [List.map_cons, List.mem_cons, not_or] at hnm
    rw [addKwPass, ih (i + 1) _ hnm.2, lookup_addKeyword_ne hnm.1]

lemma addKwPass_lookup (w : ℝ) (total : Nat) :
    ∀ (kws : List KScoredNote) (i j : Nat) (x : KScoredNote) (e : HEntry)
      (m : List (String × HEntry)),
    (kws.map (fun q => q.note.id)).Nodup →
    kws.get? j = some x →
    List.lookup x.note.id m = some e →
    List.lookup x.note.id (addKwPass w total i kws m) =
      some ⟨e.note, e.score + (1 - (((i + j : Nat) : ℝ) / total)) * w⟩ := by
  intro kws
  induction kws with
  | nil => intro i j x e m _ hget _; simp at hget
  | cons k0 rest ih =>
    intro i j x e m hnd hget hm
    rw [List.map_cons, List.nodup_cons] at hnd
    cases j with
    | zero =>
      simp only [List.get?] at hget
      injection hget with hx
      subst hx
      rw [addKwPass, addKwPass_lookup_notmem w total rest (i + 1) _ hnd.1,
        lookup_addKeyword_some k0.note ((1 - (i : ℝ) / total) * w) hm]
      norm_num
    | succ j' =>
      simp only [List.get?] at hget
      have hne : x.note.id ≠ k0.note.id := by
        intro heq
        exact hnd.1 (heq ▸ List.mem_map.mpr ⟨x, List.get?_mem hget, rfl⟩)
      rw [addKwPass]
      have := ih (i + 1) j' x e (addKeyword k0.note.id k0.note
        ((1 - (i : ℝ) / total) * w) m) hnd.2 hget
        (by rw [lookup_addKeyword_ne hne]; exact hm)
      rw [show (i + 1) + j' = i + (j' + 1) from by omega] at this
      exact this

lemma countP_lt_mono {α : Type} {s s' : ℝ} (h : s' ≤ s) (f : α → ℝ)
    (l : List α) :
    l.countP (fun a => decide (s < f a)) ≤
      l.countP (fun a => decide (s' < f a)) := by
  induction l with
  | nil => simp
  | cons a t ih =>
    rw [List.countP_cons, List.countP_cons]
    by_cases ha : s < f a
    · have ha' : s' < f a := lt_of_le_of_lt h ha
      rw [decide_eq_true ha, decide_eq_true ha']
      omega
    · rw [decide_eq_false ha]
      have hle : (if (decide (s' < f a)) = true then 1 else 0) ≤ 1 := by
        by_cases hb : (decide (s' < f a)) = true <;> simp [hb]
      simp only [Bool.false_eq_true, if_false]
      omega

/-- Claim C3: in `hybridSearch`, a note at position `i` of the semantic
candidates and position `j` of the keyword candidates receives in the
score map the sum of its semantic contribution
`score * semanticWeight * (1 - (i / total) * 0.1)` and its keyword
contribution `(1 - j / total) * keywordWeight`; with nonnegative
threshold and weights the combined score is at least each single
contribution, so no more entries outscore it than would outscore either
signal alone — its rank is at least as high, all else equal. -/
theorem hybridSearch_both_signals (vs : VS) (q : List ℝ) (keywords : List Str)
    (o : HybridOptions) (vs' : VS) (sems : List ScoredNote) (i j : Nat)
    (n : ScoredNote) (k : KScoredNote)
    (hwf : VSWF vs)
    (hS : search vs q { limit := o.limit * 2, threshold := o.threshold }
      = (vs', .ok sems))
    (hi : sems.get? i = some n)
    (hj : (keywordSearch vs'.db keywords (o.limit * 2)).get? j = some k)
    (hid : k.note.id = n.note.id) :
    hybridSearch vs q keywords o = (vs', .ok
      (((sortDescBy (fun p => p.2.score) (buildHybridMap o sems
        (keywordSearch vs'.db keywords (o.limit * 2)))).take o.limit).map
        (fun p => ⟨p.2.note, p.2.score⟩))) ∧
    ∃ entry : HEntry,
      List.lookup n.note.id (buildHybridMap o sems
        (keywordSearch vs'.db keywords (o.limit * 2))) = some entry ∧
      entry.note = n.note ∧
      entry.score =
        n.score * o.semanticWeight * (1 - ((i : ℝ) / sems.length) * (1/10)) +
        (1 - (j : ℝ) / (keywordSearch vs'.db keywords (o.limit * 2)).length) *
          o.keywordWeight ∧
      (0 ≤ o.threshold → 0 ≤ o.semanticWeight → 0 ≤ o.keywordWeight →
        (n.score * o.semanticWeight * (1 - ((i : ℝ) / sems.length) * (1/10))
            ≤ entry.score ∧
          (1 - (j : ℝ) / (keywordSearch vs'.db keywords (o.limit * 2)).length) *
            o.keywordWeight ≤ entry.score) ∧
        ((buildHybridMap o sems (keywordSearch vs'.db keywords
            (o.limit * 2))).countP
              (fun p => decide (entry.score < p.2.score)) ≤
            (buildHybridMap o sems (keywordSearch vs'.db keywords
              (o.limit * 2))).countP
              (fun p => decide (n.score * o.semanticWeight *
                (1 - ((i : ℝ) / sems.length) * (1/10)) < p.2.score)) ∧
          (buildHybridMap o sems (keywordSearch vs'.db keywords
            (o.limit * 2))).countP
              (fun p => decide (entry.score < p.2.score)) ≤
            (buildHybridMap o sems (keywordSearch vs'.db keywords
              (o.limit * 2))).countP
              (fun p => decide ((1 - (j : ℝ) /
                (keywordSearch vs'.db keywords (o.limit * 2)).length) *
                  o.keywordWeight < p.2.score)))) := by
  have hdb : vs'.db = vs.db := by
    have h1 : (search vs q { limit := o.limit * 2, threshold := o.threshold }).1 = vs' := by
      rw [hS]
    rw [← h1]
    exact search_db vs q _
  constructor
  · simp only [hybridSearch, hS]
  · have hnds : (sems.map (fun x => x.note.id)).Nodup :=
      search_ids_nodup hwf hS
    have hndk : ((keywordSearch vs'.db keywords (o.limit * 2)).map
        (fun x => x.note.id)).Nodup := by
      rw [hdb]
      exact keywordSearch_ids_nodup hwf.1 keywords (o.limit * 2)
    have hsem := addSemPass_lookup o.semanticWeight sems.length sems 0 i n []
      hnds hi
    have hkey := addKwPass_lookup o.keywordWeight
      (keywordSearch vs'.db keywords (o.limit * 2)).length
      (keywordSearch vs'.db keywords (o.limit * 2)) 0 j k _
      (addSemPass o.semanticWeight sems.length 0 sems []) hndk hj
      (by rw [hid]; exact hsem)
    rw [hid] at hkey
    simp only [Nat.zero_add] at hkey
    refine ⟨⟨n.note, n.score * o.semanticWeight *
        (1 - ((i : ℝ) / sems.length) * (1/10)) +
        (1 - (j : ℝ) / (keywordSearch vs'.db keywords (o.limit * 2)).length) *
          o.keywordWeight⟩, ?_, rfl, rfl, ?_⟩
    · rw [buildHybridMap]
      exact hkey
    · intro hth hsw hkw
      have hil : i < sems.length := (List.get?_eq_some.mp hi).1
      have hjl : j < (keywordSearch vs'.db keywords (o.limit * 2)).length :=
        (List.get?_eq_some.mp hj).1
      have hns : o.threshold ≤ n.score :=
        ((search_ok_bounds hS).2 n (List.get?_mem hi)).1
      have hns0 : 0 ≤ n.score := le_trans hth hns
      have hsl : (0 : ℝ) < sems.length := by
        exact_mod_cast (Nat.zero_le i).trans_lt hil
      have hkl : (0 : ℝ) < (keywordSearch vs'.db keywords (o.limit * 2)).length := by
        exact_mod_cast (Nat.zero_le j).trans_lt hjl
      have hfi : (i : ℝ) / sems.length ≤ 1 := by
        rw [div_le_one hsl]
        exact_mod_cast le_of_lt hil
      have hfi0 : (0 : ℝ) ≤ (i : ℝ) / sems.length :=
        div_nonneg (Nat.cast_nonneg i) (le_of_lt hsl)
      have hfj : (j : ℝ) / (keywordSearch vs'.db keywords (o.limit * 2)).length ≤ 1 := by
        rw [div_le_one hkl]
        exact_mod_cast le_of_lt hjl
      have hsemC0 : 0 ≤ n.score * o.semanticWeight *
          (1 - ((i : ℝ) / sems.length) * (1/10)) := by
        apply mul_nonneg (mul_nonneg hns0 hsw)
        nlinarith
      have hkwC0 : 0 ≤ (1 - (j : ℝ) /
          (keywordSearch vs'.db keywords (o.limit * 2)).length) *
            o.keywordWeight := by
        apply mul_nonneg _ hkw
        nlinarith
      exact ⟨⟨le_add_of_nonneg_right hkwC0, le_add_of_nonneg_left hsemC0⟩,
        countP_lt_mono (le_add_of_nonneg_right hkwC0)
          (fun p : String × HEntry => p.2.score) _,
        countP_lt_mono (le_add_of_nonneg_left hsemC0)
          (fun p : String × HEntry => p.2.score) _⟩

lemma kws_jf : keywordSearch jfDb ["javascript".toList] 40 = [⟨jfNote, 5/2⟩] := by
  have e1 : lowerStr "javascript".toList = "javascript".toList := by decide
  have hcount : countOcc "javascript".toList (searchBlob jfNote) = 1 := by decide
  have htitle : containsSub "javascript".toList (lowerStr jfNote.title) = false := by
    decide
  have htag : jfNote.tags.any
      (fun t => containsSub "javascript".toList (lowerStr t)) = true := by decide
  have hsc : kwNoteScore ["javascript".toList] jfNote = 5/2 := by
    simp only [kwNoteScore, List.foldl_cons, List.foldl_nil, hcount, htitle,
      htag, Bool.false_eq_true, eq_self_iff_true, if_false, if_true]
    norm_num
  have hnotes : getAllNotes jfDb 1000 = [jfNote] := by decide
  have d1 : decide ((0 : ℚ) < 5/2) = true := by
    rw [decide_eq_true_eq]; norm_num
  simp only [keywordSearch, List.isEmpty_cons, Bool.false_eq_true, if_false,
    hnotes, List.map_cons, List.map_nil, e1, hsc]
  rw [List.filter_cons, List.filter_nil]
  simp only [d1, if_true]
  rw [show sortDescBy (fun p : Note × ℚ => p.2) [(jfNote, 5/2)]
    = [(jfNote, 5/2)] from rfl]
  rw [List.take_of_length_le (by norm_num)]
  norm_num

/-- Witness for C3: the concrete scenario where the single note appears
at position `0` of both candidate lists; its map entry exists and holds
the note. -/
theorem hybridSearch_both_signals_witness :
    ∃ entry : HEntry,
      List.lookup jfNote.id (buildHybridMap {} [⟨jfNote, 1⟩]
        (keywordSearch jfVS'.db ["javascript".toList]
          (({} : HybridOptions).limit * 2))) = some entry ∧
      entry.note = jfNote := by
  have hwf : VSWF jfVS := by
    refine ⟨⟨by decide, by decide⟩, fun c hc => ?_⟩
    cases hc
  have hj : (keywordSearch jfVS'.db ["javascript".toList]
      (({} : HybridOptions).limit * 2)).get? 0 = some ⟨jfNote, 5/2⟩ := by
    have h2 : keywordSearch jfVS'.db ["javascript".toList]
        (({} : HybridOptions).limit * 2) = [⟨jfNote, 5/2⟩] := kws_jf
    rw [h2]
    rfl
  obtain ⟨h1, entry, hl, hnote, hrest⟩ := hybridSearch_both_signals jfVS [1]
    ["javascript".toList] {} jfVS' [⟨jfNote, 1⟩] 0 0 ⟨jfNote, 1⟩ ⟨jfNote, 5/2⟩
    hwf search_jf_40 rfl hj rfl
  exact ⟨entry, hl, hnote⟩
